import Mathlib

/-! Cajita `SparseDimPartitioner`: a shallow embedding.

Source: `src/cajita/src/Cajita_SparseDimPartitioner.cpp`.

Modelling conventions.

* A C `int` value (workload counts, boundary positions, view indices) is a Lean `Int`
  between `INT_MIN` and `INT_MAX`.  Rank counts and loop counters, which the source only
  ever uses as non-negative quantities, are `Nat`.
* A `Kokkos::View` is its extents together with a total function from index tuples to
  cell contents.  An access outside the extents is undefined behaviour in the source;
  in the model it reads whatever the function holds there, so a statement proved for
  every function holds whatever such an access would have returned.
* `std::array<T, 3>` is a function on the axis number `0, 1, 2`.
* A `float` that holds an integer is the integer rounded to a 24-bit significand
  (round to nearest, ties to even); all `float` values in this file are of that kind.
* The `int` results that the member functions hand out wrap modulo `2^32`
  (`wrapInt`: the subtraction of `ownedTilesPerDimension`, the shift of
  `ownedCellsPerDimension`), and a conversion of a floating-point value to `int` is
  range-checked (`castToInt`).  The sums and differences inside `optimizePartition` are
  formed on unbounded integers.
* An integer division by zero stops the run: `optimizeAxis` returns `none` there.
* A read past the end of a `std::vector` (undefined in the source) makes
  `initialize_rec_partition` return `none`.
* Particle coordinates and the cell size of `computeLocalWorkLoad` are rationals, and
  `x / dx - 0.5` is formed exactly; the floating-point result of the source is the same
  whenever the quotient and the difference are representable in the floating-point type.
* Atomic increments issued by a `parallel_for` are applied one after the other.
* The partitioner object is a record, and every member function of the source is a
  function from the record (and its arguments) to its result or to the new record.
-/

namespace Cajita

/-! ## Views -/

/-- The `Kokkos::View<int***, MemorySpace>` type: three extents and the cells. -/
structure View3 where
  extent0 : Nat
  extent1 : Nat
  extent2 : Nat
  data : Int → Int → Int → Int

/-- The `Kokkos::View<int* [3], MemorySpace>` type: `extent0` rows of three cells each. -/
structure View2 where
  extent0 : Nat
  data : Int → Nat → Int

/-- Membership of an index triple in the extents of a view. -/
def View3.inRange (v : View3) (i j k : Int) : Prop :=
  0 ≤ i ∧ i < v.extent0 ∧ 0 ≤ j ∧ j < v.extent1 ∧ 0 ≤ k ∧ k < v.extent2

instance (v : View3) (i j k : Int) : Decidable (v.inRange i j k) :=
  inferInstanceAs (Decidable
    (0 ≤ i ∧ i < v.extent0 ∧ 0 ≤ j ∧ j < v.extent1 ∧ 0 ≤ k ∧ k < v.extent2))

/-- A view with the given extents holding the cells of a nested list (row `i`, column `j`,
entry `k`), and `0` wherever the list has no entry. -/
def View3.ofLists (e0 e1 e2 : Nat) (cells : List (List (List Int))) : View3 :=
  { extent0 := e0, extent1 := e1, extent2 := e2,
    data := fun i j k =>
      if 0 ≤ i ∧ 0 ≤ j ∧ 0 ≤ k then
        (((cells.getD i.toNat []).getD j.toNat []).getD k.toNat 0)
      else 0 }

/-- A view with the given extents in which every cell holds `c`. -/
def View3.const (e0 e1 e2 : Nat) (c : Int) : View3 :=
  { extent0 := e0, extent1 := e1, extent2 := e2, data := fun _ _ _ => c }

/-! ## 32-bit `int` -/

/-- The value of `__INT_MAX__` for a 32-bit `int`. -/
def INT_MAX : Int := 2147483647

/-- The least value of a 32-bit `int`. -/
def INT_MIN : Int := -2147483648

/-- The 32-bit `int` that an `int` operation with the exact result `x` leaves: `x` reduced
modulo `2^32` into the range from `INT_MIN` to `INT_MAX`. -/
def wrapInt (x : Int) : Int := (x + 2147483648) % 4294967296 - 2147483648

/-- Conversion to `int` of a floating-point value whose integer part is `t`: `t` itself
when an `int` can hold it.  Outside that range the conversion is undefined in the source;
the model returns `INT_MIN`, the result of the x86 conversion instruction. -/
def castToInt (t : Int) : Int := if INT_MIN ≤ t ∧ t ≤ INT_MAX then t else INT_MIN

/-! ## `float` conversions of integers -/

/-- Number of low-order bits an integer of magnitude `m` loses when it is stored in a
24-bit significand; `fuel` bounds the search (a `float` exponent is below 128). -/
def floatExponent : Nat → Nat → Nat
  | 0, _ => 0
  | fuel + 1, m => if m < 2 ^ 24 then 0 else floatExponent fuel (m / 2) + 1

/-- Conversion of an integer to `float` (as in `const float val_i = <int>`): the nearest
integer with a 24-bit significand, ties to the even significand. -/
def toFloat (n : Int) : Int :=
  let m := n.natAbs
  let e := floatExponent 128 m
  let q := m / 2 ^ e
  let r := m % 2 ^ e
  let q1 := if 2 ^ e < 2 * r ∨ (2 * r = 2 ^ e ∧ q % 2 = 1) then q + 1 else q
  Int.sign n * ((q1 * 2 ^ e : Nat) : Int)

/-- The statement `update += val_i;` with `int& update` and `const float val_i` holding
the cell `val`: `update` is converted to `float`, the sum is formed in `float`, and the
(integral) result is converted back to `int`. -/
def floatAddAssign (update val : Int) : Int :=
  castToInt (toFloat (toFloat update + toFloat val))

/-! ## `computeFullPrefixSum` -/

/-- The `Kokkos::parallel_scan` over one grid line with the functor of the source:
`parallel_scan line n` is the value of `update` after the entries `0 .. n-1` of the line
have been added, so the cell written at position `i` (when `final`) is
`parallel_scan line (i + 1)`.  The entries are added in index order; a one-entry line is
scanned the same way under every schedule. -/
def parallel_scan (line : Nat → Int) : Nat → Int
  | 0 => 0
  | n + 1 => floatAddAssign (parallel_scan line n) (line n)

/-- First loop nest of `computeFullPrefixSum` (lines 188-199): scan along axis 0 for
every `(j, k)`. -/
def scanAxis0 (v : View3) : View3 :=
  { v with data := fun i j k =>
      if v.inRange i j k then parallel_scan (fun n => v.data n j k) (i.toNat + 1)
      else v.data i j k }

/-- Second loop nest of `computeFullPrefixSum` (lines 201-212): scan along axis 1 for
every `(i, k)`. -/
def scanAxis1 (v : View3) : View3 :=
  { v with data := fun i j k =>
      if v.inRange i j k then parallel_scan (fun n => v.data i n k) (j.toNat + 1)
      else v.data i j k }

/-- Third loop nest of `computeFullPrefixSum` (lines 214-225): scan along axis 2 for
every `(i, j)`. -/
def scanAxis2 (v : View3) : View3 :=
  { v with data := fun i j k =>
      if v.inRange i j k then parallel_scan (fun n => v.data i j n) (k.toNat + 1)
      else v.data i j k }

/-- The three scan passes of `computeFullPrefixSum`, applied to the grid that the
all-reduce left in `_workload_prefix_sum`. -/
def computeFullPrefixSum (reduced : View3) : View3 :=
  scanAxis2 (scanAxis1 (scanAxis0 reduced))

/-- The inclusive three-dimensional prefix sum of a grid, by brute force:
the sum of `w i1 j1 k1` over `0 ≤ i1 ≤ i`, `0 ≤ j1 ≤ j`, `0 ≤ k1 ≤ k`. -/
def inclusivePrefix (w : Int → Int → Int → Int) (i j k : Nat) : Int :=
  ∑ i1 in Finset.range (i + 1), ∑ j1 in Finset.range (j + 1),
    ∑ k1 in Finset.range (k + 1), w i1 j1 k1

/-! ## The partitioner object -/

/-- The data members of `SparseDimPartitioner` that the member functions below read or
write.  `_rectangle_partition` is the host `std::array<std::vector<int>, 3>`;
`_rectangle_partition_dev` is the `Kokkos::View<int* [3]>` that the kernels read
(cell `(id, d)`); `_ranks_per_dim_dev` is the kernel copy of `_ranks_per_dim`. -/
structure SparseDimPartitioner where
  _ranks_per_dim : Nat → Nat
  _ranks_per_dim_dev : Nat → Nat
  _rectangle_partition : Nat → List Int
  _rectangle_partition_dev : View2
  _workload_prefix_sum : View3

/-- Extent of the tile grid on axis `d`: the extent of `_workload_prefix_sum`, which the
constructors allocate with `global_cells_per_dim[d] >> cell_bits_per_tile_dim` cells. -/
def globalTiles (s : SparseDimPartitioner) (d : Nat) : Nat :=
  match d with
  | 0 => s._workload_prefix_sum.extent0
  | 1 => s._workload_prefix_sum.extent1
  | _ => s._workload_prefix_sum.extent2

/-- Assignment `a[d] = v` to a `Kokkos::Array<int, 3>` / `std::array<int, 3>`. -/
def setAt (a : Nat → Int) (d : Nat) (v : Int) : Nat → Int :=
  fun e => if e = d then v else a e

/-- Assignment `view( id, d ) = v` to a `Kokkos::View<int* [3]>`. -/
def View2.set (m : View2) (id : Int) (d : Nat) (v : Int) : View2 :=
  { m with data := fun id1 d1 => if id1 = id ∧ d1 = d then v else m.data id1 d1 }

/-! ## `ownedTilesPerDimension`, `ownedCellsPerDimension` -/

/-- `ownedTilesPerDimension` (lines 81-98).  `cart_rank` is the Cartesian coordinate that
`MPI_Cart_coords` returns for the calling rank; a vector access past the end (undefined
in the source) reads `0`.  The subtraction of lines 94-95 is an `int` subtraction. -/
def ownedTilesPerDimension (s : SparseDimPartitioner) (cart_rank : Nat → Nat) : Nat → Int :=
  fun d =>
    if d < 3 then
      wrapInt ((s._rectangle_partition d).getD (cart_rank d + 1) 0 -
        (s._rectangle_partition d).getD (cart_rank d) 0)
    else 0

/-- `ownedCellsPerDimension` (lines 101-112).  `cell_bits_per_tile_dim` is the tile-bit
constant of the header, taken as a parameter.  The shift `<<=` of line 109 is a shift of
an `int`. -/
def ownedCellsPerDimension (cell_bits_per_tile_dim : Nat) (s : SparseDimPartitioner)
    (cart_rank : Nat → Nat) : Nat → Int :=
  fun i =>
    if i < 3 then
      wrapInt (ownedTilesPerDimension s cart_rank i <<< (cell_bits_per_tile_dim : Int))
    else ownedTilesPerDimension s cart_rank i

/-! ## `initialize_rec_partition` -/

/-- The loop of lines 123-127: the largest entry of `_ranks_per_dim`. -/
def maxRanks (ranks : Nat → Nat) : Nat :=
  let m0 := 0
  let m1 := if m0 < ranks 0 then ranks 0 else m0
  let m2 := if m1 < ranks 1 then ranks 1 else m1
  if m2 < ranks 2 then ranks 2 else m2

/-- `initialize_rec_partition` (lines 115-138): stores the three sequences, allocates
the (zero-initialised) kernel view with `max_size` rows and copies the first
`_ranks_per_dim[d]` entries of each sequence into column `d`.  The copy loop of lines
132-136 indexes the vectors unchecked: when a sequence has fewer than `_ranks_per_dim[d]`
entries it reads past the end of the vector, which is undefined in the source; the model
returns `none` there. -/
def initialize_rec_partition (s : SparseDimPartitioner)
    (rec_partition_i rec_partition_j rec_partition_k : List Int) :
    Option SparseDimPartitioner :=
  let part : Nat → List Int := fun d =>
    match d with
    | 0 => rec_partition_i
    | 1 => rec_partition_j
    | 2 => rec_partition_k
    | _ => s._rectangle_partition d
  if s._ranks_per_dim 0 ≤ rec_partition_i.length ∧
      s._ranks_per_dim 1 ≤ rec_partition_j.length ∧
      s._ranks_per_dim 2 ≤ rec_partition_k.length then
    some
      { s with
        _rectangle_partition := part
        _rectangle_partition_dev :=
          { extent0 := maxRanks s._ranks_per_dim
            data := fun id d =>
              if d < 3 ∧ 0 ≤ id ∧ id < s._ranks_per_dim d then (part d).getD id.toNat 0
              else 0 } }
  else none

/-! ## `compute_sub_workload` -/

/-- The eight-term expression returned by both overloads (lines 250-261, 280-291). -/
def inclusionExclusion (S : Int → Int → Int → Int) (start stop : Nat → Int) : Int :=
  S (stop 0) (stop 1) (stop 2)
    - S (start 0) (stop 1) (stop 2)
    - S (stop 0) (start 1) (stop 2)
    - S (stop 0) (stop 1) (start 2)
    + S (start 0) (start 1) (stop 2)
    + S (stop 0) (start 1) (start 2)
    + S (start 0) (stop 1) (start 2)
    - S (start 0) (start 1) (start 2)

/-- The loop of lines 234-238, `while ( dim_i == dim_j || dim_i == dim_k )
dim_i = ( dim_i + 1 ) % 3;`, started at `dim_i`; three rounds always suffice, since
`dim_j` and `dim_k` exclude at most two of the three residues. -/
def freeAxis : Nat → Nat → Nat → Nat → Nat
  | 0, dim_i, _, _ => dim_i
  | fuel + 1, dim_i, dim_j, dim_k =>
    if dim_i = dim_j ∨ dim_i = dim_k then freeAxis fuel ((dim_i + 1) % 3) dim_j dim_k
    else dim_i

/-- The array `end` of the four-argument overload after lines 239-241; its
uninitialised cells hold `0`. -/
def endOf4 (s : SparseDimPartitioner) (dim_j : Nat) (j : Int) (dim_k : Nat) (k : Int) :
    Nat → Int :=
  let dim_i := freeAxis 3 0 dim_j dim_k
  setAt (setAt (setAt (fun _ => 0) dim_i (s._ranks_per_dim_dev dim_i))
    dim_j (s._rectangle_partition_dev.data j dim_j)) dim_k (s._rectangle_partition_dev.data k dim_k)

/-- The array `start` of the four-argument overload after lines 243-245. -/
def startOf4 (s : SparseDimPartitioner) (dim_j : Nat) (j : Int) (dim_k : Nat) (k : Int) :
    Nat → Int :=
  let dim_i := freeAxis 3 0 dim_j dim_k
  setAt (setAt (setAt (fun _ => 0) dim_i (s._ranks_per_dim_dev dim_i))
    dim_j (if j > 0 then s._rectangle_partition_dev.data (j - 1) dim_j else 0))
    dim_k (if k > 0 then s._rectangle_partition_dev.data (k - 1) dim_k else 0)

/-- The four-argument `compute_sub_workload( dim_j, j, dim_k, k )` (lines 229-262). -/
def compute_sub_workload4 (s : SparseDimPartitioner) (dim_j : Nat) (j : Int) (dim_k : Nat)
    (k : Int) : Int :=
  inclusionExclusion s._workload_prefix_sum.data (startOf4 s dim_j j dim_k k)
    (endOf4 s dim_j j dim_k k)

/-- The array `end` of the six-argument overload after lines 269-271. -/
def endOf6 (s : SparseDimPartitioner) (dim_i : Nat) (i : Int) (dim_j : Nat) (j : Int)
    (dim_k : Nat) (k : Int) : Nat → Int :=
  setAt (setAt (setAt (fun _ => 0) dim_i (s._rectangle_partition_dev.data i dim_i))
    dim_j (s._rectangle_partition_dev.data j dim_j)) dim_k (s._rectangle_partition_dev.data k dim_k)

/-- The array `start` of the six-argument overload after lines 273-275. -/
def startOf6 (s : SparseDimPartitioner) (dim_i : Nat) (i : Int) (dim_j : Nat) (j : Int)
    (dim_k : Nat) (k : Int) : Nat → Int :=
  setAt (setAt (setAt (fun _ => 0)
    dim_i (if i > 0 then s._rectangle_partition_dev.data (i - 1) dim_i else 0))
    dim_j (if j > 0 then s._rectangle_partition_dev.data (j - 1) dim_j else 0))
    dim_k (if k > 0 then s._rectangle_partition_dev.data (k - 1) dim_k else 0)

/-- The six-argument `compute_sub_workload( dim_i, i, dim_j, j, dim_k, k )`
(lines 264-292). -/
def compute_sub_workload6 (s : SparseDimPartitioner) (dim_i : Nat) (i : Int) (dim_j : Nat)
    (j : Int) (dim_k : Nat) (k : Int) : Int :=
  inclusionExclusion s._workload_prefix_sum.data (startOf6 s dim_i i dim_j j dim_k k)
    (endOf6 s dim_i i dim_j j dim_k k)

/-! ## `optimizePartition` -/

/-- `Kokkos::parallel_reduce( "Reduction", n, update += term( idx ), result )`: the sum
of the `n` terms, accumulated in `int`. -/
def parallel_reduce (term : Nat → Int) : Nat → Int
  | 0 => 0
  | n + 1 => parallel_reduce term n + term n

/-- The division `/ rank` of line 312 divides by zero: the rank count of axis `di` is `0`
and the `parallel_for` of lines 305-315 has at least one item.  (The searches of lines
325-361 divide by the same `rank`, and only run when it is at least `2`.  The divisor
`_ranks_per_dim_dev[dk]` of lines 309-310 is the kernel copy of `_ranks_per_dim[dk]`,
which is not `0` when the `parallel_for` has an item.) -/
def divisionByZero (s : SparseDimPartitioner) (di : Nat) : Prop :=
  s._ranks_per_dim di = 0 ∧
    0 < s._ranks_per_dim ((di + 1) % 3) * s._ranks_per_dim ((di + 2) % 3)

instance (s : SparseDimPartitioner) (di : Nat) : Decidable (divisionByZero s di) :=
  inferInstanceAs (Decidable
    (s._ranks_per_dim di = 0 ∧
      0 < s._ranks_per_dim ((di + 1) % 3) * s._ranks_per_dim ((di + 2) % 3)))

/-- Lines 303-320: `ave_workload( jnk ) = compute_sub_workload( dj, j, dk, k ) / rank`
for every `jnk`, then the reduction into `sum_ave_workload`.  (The reduction functor of
the source indexes with an undeclared `i`, read here as its own index `idx`, and line 310
lacks its semicolon.)  The quotient is the truncating `int` division for `rank ≠ 0`;
`optimizeAxis` does not get here when `divisionByZero` holds. -/
def sum_ave_workload (s : SparseDimPartitioner) (di : Nat) : Int :=
  let rank : Int := s._ranks_per_dim di
  let dj := (di + 1) % 3
  let dk := (di + 2) % 3
  parallel_reduce
    (fun jnk =>
      let j : Int := ((jnk / s._ranks_per_dim_dev dk : Nat) : Int)
      let k : Int := ((jnk % s._ranks_per_dim_dev dk : Nat) : Int)
      Int.tdiv (compute_sub_workload4 s dj j dk k) rank)
    (s._ranks_per_dim dj * s._ranks_per_dim dk)

/-- Lines 330-348: `current_workload( jnk ) = compute_sub_workload( di, point_i, dj, j,
dk, k ) / rank` for every `jnk`, then the reduction into `sum_current_workload`.  The
quotient is the truncating `int` division for `rank ≠ 0`; the searches that evaluate this
sum only run with `rank` at least `2`. -/
def sum_current_workload (s : SparseDimPartitioner) (di : Nat) (point_i : Int) : Int :=
  let rank : Int := s._ranks_per_dim di
  let dj := (di + 1) % 3
  let dk := (di + 2) % 3
  parallel_reduce
    (fun jnk =>
      let j : Int := ((jnk / s._ranks_per_dim_dev dk : Nat) : Int)
      let k : Int := ((jnk % s._ranks_per_dim_dev dk : Nat) : Int)
      Int.tdiv (compute_sub_workload6 s di point_i dj j dk k) rank)
    (s._ranks_per_dim dj * s._ranks_per_dim dk)

/-- The `while ( true )` loop of lines 328-360, up to (not including) the store at the
`break`: started with the given `point_i` and `last_diff`, it returns the value of
`point_i` at the `break`.  Each unit of `fuel` pays for one round; `none` means the fuel
ran out before the `break`. -/
def boundarySearch (s : SparseDimPartitioner) (di : Nat) (sum_ave : Int) :
    Nat → Int → Int → Option Int
  | 0, _, _ => none
  | fuel + 1, point_i, last_diff =>
    let diff := |sum_current_workload s di point_i - sum_ave|
    if diff < last_diff then boundarySearch s di sum_ave fuel (point_i + 1) diff
    else some point_i

/-- Fuel handed to every boundary search: `last_diff` starts at `INT_MAX` and strictly
decreases through non-negative integers, so no search runs more rounds than this. -/
def searchFuel : Nat := 2147483649

/-- The `for ( current_rank ... )` loop of lines 325-361 with `n` rounds left: each round
runs one boundary search from the current `point_i` with `last_diff = INT_MAX` and stores
`point_i - 1` into `_rectangle_partition_dev( current_rank, di )`. -/
def searchBoundaries (di : Nat) (sum_ave : Int) :
    Nat → Nat → Int → SparseDimPartitioner → Option (SparseDimPartitioner × Int)
  | 0, _, point_i, s => some (s, point_i)
  | n + 1, current_rank, point_i, s =>
    match boundarySearch s di sum_ave searchFuel point_i INT_MAX with
    | none => none
    | some p =>
      searchBoundaries di sum_ave n (current_rank + 1) p
        { s with _rectangle_partition_dev :=
            s._rectangle_partition_dev.set (current_rank : Int) di (p - 1) }

/-- One round of the outer loop of `optimizePartition` (the body of `for ( di ... )`,
lines 300-361).  `none` is the run that does not return: the division by zero of line 312
(or a boundary search that runs out of fuel, which `boundarySearch_total` excludes). -/
def optimizeAxis (s : SparseDimPartitioner) (di : Nat) : Option SparseDimPartitioner :=
  if divisionByZero s di then none
  else
    (searchBoundaries di (sum_ave_workload s di) (s._ranks_per_dim di - 1) 0 1 s).map
      Prod.fst

/-- `optimizePartition` (lines 294-363): the three axis sweeps in the order 0, 1, 2. -/
def optimizePartition (s : SparseDimPartitioner) : Option SparseDimPartitioner :=
  (optimizeAxis s 0).bind fun s1 => (optimizeAxis s1 1).bind fun s2 => optimizeAxis s2 2

/-! ## `computeLocalWorkLoad` -/

/-- The conversion `static_cast<int>( q )` of a floating-point value `q`: the integer
part of `q`, rounded toward zero, when an `int` can hold it (`castToInt`). -/
def static_cast_int (q : Rat) : Int := castToInt (Int.tdiv q.num q.den)

/-- Lines 148-153: the tile index on one axis of a particle with coordinate `x`,
`static_cast<int>( x / dx - 0.5 ) >> cell_bits_per_tile_dim`.  The quotient and the
difference are formed exactly; the source forms them in floating point, with the same
result whenever `x`, `dx`, `x / dx` and `x / dx - 0.5` are representable (as they are
when `x`, `dx` and `x / dx` have at most 24 significant bits, `Float24` below). -/
def tileIndex (cell_bits_per_tile_dim : Nat) (x dx : Rat) : Int :=
  static_cast_int (x / dx - 1 / 2) >>> cell_bits_per_tile_dim

/-- The call `atomic_increment( &grid( ti, tj, tz ) )`. -/
def atomic_increment (grid : View3) (ti tj tz : Int) : View3 :=
  { grid with data := fun i j k =>
      if i = ti ∧ j = tj ∧ k = tz then grid.data i j k + 1 else grid.data i j k }

/-- `computeLocalWorkLoad( view, particle_num, dx )` (lines 141-156) on the workload grid
`grid`.  `view i d` is coordinate `d` of particle `i`.  The increments are atomic, so the
`parallel_for` leaves what the particles leave one after the other. -/
def computeLocalWorkLoad (cell_bits_per_tile_dim : Nat) (grid : View3) (view : Nat → Nat → Rat)
    (particle_num : Nat) (dx : Rat) : View3 :=
  match particle_num with
  | 0 => grid
  | i + 1 =>
    atomic_increment (computeLocalWorkLoad cell_bits_per_tile_dim grid view i dx)
      (tileIndex cell_bits_per_tile_dim (view i 0) dx)
      (tileIndex cell_bits_per_tile_dim (view i 1) dx)
      (tileIndex cell_bits_per_tile_dim (view i 2) dx)

/-- Sum of all entries of a grid. -/
def gridSum (grid : View3) : Int :=
  ∑ i in Finset.range grid.extent0, ∑ j in Finset.range grid.extent1,
    ∑ k in Finset.range grid.extent2, grid.data i j k

/-! ## The lookups of a boundary search -/

/-- The candidates that the `while ( true )` loop of lines 328-360 examines: the value of
`point_i` in every round it runs, in order (same rounds as `boundarySearch`). -/
def examinedCandidates (s : SparseDimPartitioner) (di : Nat) (sum_ave : Int) :
    Nat → Int → Int → List Int
  | 0, _, _ => []
  | fuel + 1, point_i, last_diff =>
    let diff := |sum_current_workload s di point_i - sum_ave|
    point_i :: (if diff < last_diff then examinedCandidates s di sum_ave fuel (point_i + 1) diff
      else [])

/-- The candidates examined during the whole `for ( current_rank ... )` loop of one axis,
search after search, in order (same rounds as `searchBoundaries`). -/
def sweepCandidates (di : Nat) (sum_ave : Int) :
    Nat → Nat → Int → SparseDimPartitioner → List Int
  | 0, _, _, _ => []
  | n + 1, current_rank, point_i, s =>
    examinedCandidates s di sum_ave searchFuel point_i INT_MAX ++
      match boundarySearch s di sum_ave searchFuel point_i INT_MAX with
      | none => []
      | some p =>
        sweepCandidates di sum_ave n (current_rank + 1) p
          { s with _rectangle_partition_dev :=
              s._rectangle_partition_dev.set (current_rank : Int) di (p - 1) }

/-- The cells `(row, column)` of `_rectangle_partition_dev` that the six-argument
`compute_sub_workload` reads (lines 269-275). -/
def devReads6 (dim_i : Nat) (i : Int) (dim_j : Nat) (j : Int) (dim_k : Nat) (k : Int) :
    List (Int × Nat) :=
  [(i, dim_i), (j, dim_j), (k, dim_k)] ++ (if i > 0 then [(i - 1, dim_i)] else []) ++
    (if j > 0 then [(j - 1, dim_j)] else []) ++ (if k > 0 then [(k - 1, dim_k)] else [])

/-- The index triples at which the eight-term expression reads the prefix-sum table. -/
def tableReads (start stop : Nat → Int) : List (Int × Int × Int) :=
  [(stop 0, stop 1, stop 2), (start 0, stop 1, stop 2), (stop 0, start 1, stop 2),
    (stop 0, stop 1, start 2), (start 0, start 1, stop 2), (stop 0, start 1, start 2),
    (start 0, stop 1, start 2), (start 0, start 1, start 2)]

/-- A cell `(row, column)` lies inside a `Kokkos::View<int* [3]>`. -/
def View2.inBounds (m : View2) (c : Int × Nat) : Prop :=
  0 ≤ c.1 ∧ c.1 < m.extent0 ∧ c.2 < 3

instance (m : View2) (c : Int × Nat) : Decidable (m.inBounds c) :=
  inferInstanceAs (Decidable (0 ≤ c.1 ∧ c.1 < m.extent0 ∧ c.2 < 3))

/-- Every lookup of one call of the six-argument `compute_sub_workload` is in bounds:
the cells it reads of `_rectangle_partition_dev` and the index triples it reads of
`_workload_prefix_sum`. -/
def lookupsInBounds6 (s : SparseDimPartitioner) (dim_i : Nat) (i : Int) (dim_j : Nat)
    (j : Int) (dim_k : Nat) (k : Int) : Prop :=
  (∀ c ∈ devReads6 dim_i i dim_j j dim_k k, s._rectangle_partition_dev.inBounds c) ∧
  (∀ t ∈ tableReads (startOf6 s dim_i i dim_j j dim_k k) (endOf6 s dim_i i dim_j j dim_k k),
    s._workload_prefix_sum.inRange t.1 t.2.1 t.2.2)

instance (s : SparseDimPartitioner) (dim_i : Nat) (i : Int) (dim_j : Nat) (j : Int)
    (dim_k : Nat) (k : Int) : Decidable (lookupsInBounds6 s dim_i i dim_j j dim_k k) :=
  inferInstanceAs (Decidable
    ((∀ c ∈ devReads6 dim_i i dim_j j dim_k k, s._rectangle_partition_dev.inBounds c) ∧
      (∀ t ∈ tableReads (startOf6 s dim_i i dim_j j dim_k k)
          (endOf6 s dim_i i dim_j j dim_k k),
        s._workload_prefix_sum.inRange t.1 t.2.1 t.2.2)))

/-- Every lookup of the round of a boundary search on axis `di` that examines the
candidate `point_i` (lines 330-341) is in bounds. -/
def roundInBounds (s : SparseDimPartitioner) (di : Nat) (point_i : Int) : Prop :=
  ∀ jnk ∈ List.range (s._ranks_per_dim ((di + 1) % 3) * s._ranks_per_dim ((di + 2) % 3)),
    lookupsInBounds6 s di point_i ((di + 1) % 3)
      ((jnk / s._ranks_per_dim_dev ((di + 2) % 3) : Nat) : Int) ((di + 2) % 3)
      ((jnk % s._ranks_per_dim_dev ((di + 2) % 3) : Nat) : Int)

instance (s : SparseDimPartitioner) (di : Nat) (point_i : Int) :
    Decidable (roundInBounds s di point_i) :=
  inferInstanceAs (Decidable
    (∀ jnk ∈ List.range (s._ranks_per_dim ((di + 1) % 3) * s._ranks_per_dim ((di + 2) % 3)),
      lookupsInBounds6 s di point_i ((di + 1) % 3)
        ((jnk / s._ranks_per_dim_dev ((di + 2) % 3) : Nat) : Int) ((di + 2) % 3)
        ((jnk % s._ranks_per_dim_dev ((di + 2) % 3) : Nat) : Int)))

/-! ## The `RectPartition` invariant -/

/-- Shape of the stored sequence of axis `d`: it has `_ranks_per_dim[d] + 1` entries,
starts at `0` and ends at the tile extent of the axis. -/
def BoundaryShape (s : SparseDimPartitioner) (d : Nat) : Prop :=
  (s._rectangle_partition d).length = s._ranks_per_dim d + 1 ∧
  (s._rectangle_partition d).getD 0 0 = 0 ∧
  (s._rectangle_partition d).getD (s._ranks_per_dim d) 0 = (globalTiles s d : Int)

instance (s : SparseDimPartitioner) (d : Nat) : Decidable (BoundaryShape s d) :=
  inferInstanceAs (Decidable
    ((s._rectangle_partition d).length = s._ranks_per_dim d + 1 ∧
      (s._rectangle_partition d).getD 0 0 = 0 ∧
      (s._rectangle_partition d).getD (s._ranks_per_dim d) 0 = (globalTiles s d : Int)))

/-- The `RectPartition` invariant for axis `d`: the stored sequence has the shape above
and is non-decreasing. -/
def RectPartitionAxis (s : SparseDimPartitioner) (d : Nat) : Prop :=
  BoundaryShape s d ∧ List.Pairwise (fun a b : Int => a ≤ b) (s._rectangle_partition d)

instance (s : SparseDimPartitioner) (d : Nat) : Decidable (RectPartitionAxis s d) :=
  inferInstanceAs (Decidable
    (BoundaryShape s d ∧ List.Pairwise (fun a b : Int => a ≤ b) (s._rectangle_partition d)))

/-- The `RectPartition` invariant: `RectPartitionAxis` on the three axes. -/
def RectPartitionInvariant (s : SparseDimPartitioner) : Prop :=
  RectPartitionAxis s 0 ∧ RectPartitionAxis s 1 ∧ RectPartitionAxis s 2

instance (s : SparseDimPartitioner) : Decidable (RectPartitionInvariant s) :=
  inferInstanceAs (Decidable
    (RectPartitionAxis s 0 ∧ RectPartitionAxis s 1 ∧ RectPartitionAxis s 2))

/-- A partitioner with the given rank counts (mirrored to the kernel copy) and prefix-sum
table, before any partition has been installed. -/
def mkPartitioner (r0 r1 r2 : Nat) (S : View3) : SparseDimPartitioner :=
  let ranks : Nat → Nat := fun d =>
    match d with
    | 0 => r0
    | 1 => r1
    | _ => r2
  { _ranks_per_dim := ranks
    _ranks_per_dim_dev := ranks
    _rectangle_partition := fun _ => []
    _rectangle_partition_dev := { extent0 := 0, data := fun _ _ => 0 }
    _workload_prefix_sum := S }

/-- Every axis has at least one rank, in `_ranks_per_dim` and in its kernel copy (which
the constructors fill from `_ranks_per_dim`, lines 47-53 and 69-75). -/
def PositiveRanks (s : SparseDimPartitioner) : Prop :=
  ∀ d, d < 3 → 1 ≤ s._ranks_per_dim d ∧ 1 ≤ s._ranks_per_dim_dev d

instance (s : SparseDimPartitioner) : Decidable (PositiveRanks s) :=
  inferInstanceAs (Decidable
    (∀ d, d < 3 → 1 ≤ s._ranks_per_dim d ∧ 1 ≤ s._ranks_per_dim_dev d))

/-! ## Reference quantities of the claims -/

/-- The `std::array<int, 3>` with entries `a`, `b`, `c`. -/
def triple (a b c : Int) : Nat → Int :=
  fun d =>
    match d with
    | 0 => a
    | 1 => b
    | _ => c

/-- The Cartesian rank coordinate `(c0, c1, c2)`. -/
def cartCoord (c0 c1 c2 : Nat) : Nat → Nat :=
  fun d =>
    match d with
    | 0 => c0
    | 1 => c1
    | _ => c2

/-- Brute-force sum of `f x` over the integers `lo ≤ x < hi`. -/
def sumRange (lo hi : Int) (f : Int → Int) : Int :=
  ((List.range (hi - lo).toNat).map fun n : Nat => f (lo + (n : Int))).sum

/-- Brute-force sum of the grid `w` over the half-open box
`[start 0, stop 0) × [start 1, stop 1) × [start 2, stop 2)`. -/
def bruteForceBox (w : Int → Int → Int → Int) (start stop : Nat → Int) : Int :=
  sumRange (start 0) (stop 0) fun x =>
    sumRange (start 1) (stop 1) fun y =>
      sumRange (start 2) (stop 2) fun z => w x y z

/-- The inclusion-exclusion difference of the prefix-sum inverse at `(i, j, k)`: the
eight-term expression over the table entries adjacent to `(i, j, k)`, in which an entry
with an index `-1` counts as `0`. -/
def prefixSumInverse (S : Int → Int → Int → Int) (i j k : Int) : Int :=
  inclusionExclusion (fun a b c => if a < 0 ∨ b < 0 ∨ c < 0 then 0 else S a b c)
    (triple (i - 1) (j - 1) (k - 1)) (triple i j k)

/-- The range in which the `float` temporaries of the scans are exact: the in-range
cells of the grid are non-negative and its in-range inclusive prefix sums are below
`2^24`. -/
def ExactRange (W : View3) : Prop :=
  (∀ i j k : Nat, i < W.extent0 → j < W.extent1 → k < W.extent2 → 0 ≤ W.data i j k) ∧
  (∀ i j k : Nat, i < W.extent0 → j < W.extent1 → k < W.extent2 →
    inclusivePrefix W.data i j k < 2 ^ 24)

/-- The pencils that a sweep on axis `di` runs over, as the code forms them: one block per
pair of rank indices `(j, k)` of the two other axes, with the bounds
`((start_j, end_j), (start_k, end_k))` that `compute_sub_workload` looks up. -/
def rankBlockPencils (s : SparseDimPartitioner) (di : Nat) : List ((Int × Int) × (Int × Int)) :=
  (List.range (s._ranks_per_dim ((di + 1) % 3) * s._ranks_per_dim ((di + 2) % 3))).map
    fun jnk : Nat =>
      let j : Int := ((jnk / s._ranks_per_dim_dev ((di + 2) % 3) : Nat) : Int)
      let k : Int := ((jnk % s._ranks_per_dim_dev ((di + 2) % 3) : Nat) : Int)
      ((if j > 0 then s._rectangle_partition_dev.data (j - 1) ((di + 1) % 3) else 0,
          s._rectangle_partition_dev.data j ((di + 1) % 3)),
        (if k > 0 then s._rectangle_partition_dev.data (k - 1) ((di + 2) % 3) else 0,
          s._rectangle_partition_dev.data k ((di + 2) % 3)))

/-- The pencils of the glossary: one per pair `(p, q)` of tile coordinates of the two
other axes, with the bounds `((p, p + 1), (q, q + 1))`. -/
def tilePencils (s : SparseDimPartitioner) (di : Nat) : List ((Int × Int) × (Int × Int)) :=
  (List.range (globalTiles s ((di + 1) % 3) * globalTiles s ((di + 2) % 3))).map
    fun n : Nat =>
      let p : Int := ((n / globalTiles s ((di + 2) % 3) : Nat) : Int)
      let q : Int := ((n % globalTiles s ((di + 2) % 3) : Nat) : Int)
      ((p, p + 1), (q, q + 1))

/-- The candidate total of the optimizer as the specification words it: the sum over the
pencils of `floor( boxsum( w; axis-di range [b, c), pencil ) / R )`. -/
def candidateTotalSpec (w : Int → Int → Int → Int) (di : Nat) (R b c : Int)
    (pencils : List ((Int × Int) × (Int × Int))) : Int :=
  (pencils.map fun pq =>
    Int.fdiv
      (bruteForceBox w
        (setAt (setAt (setAt (fun _ => 0) di b) ((di + 1) % 3) pq.1.1) ((di + 2) % 3) pq.2.1)
        (setAt (setAt (setAt (fun _ => 0) di c) ((di + 1) % 3) pq.1.2) ((di + 2) % 3) pq.2.2))
      R).sum

/-- The prefix-sum table is identically zero: every cell inside its extents holds `0`. -/
def ZeroCells (s : SparseDimPartitioner) : Prop :=
  ∀ i j k : Int, s._workload_prefix_sum.inRange i j k → s._workload_prefix_sum.data i j k = 0

/-- A non-negative value with at most 24 significant bits, at most 24 of them after the
binary point: `n / 2^k` with `n < 2^24` and `k ≤ 24`.  Every floating-point type
represents such a value exactly. -/
def Float24 (q : Rat) : Prop :=
  ∃ n k : Nat, n < 2 ^ 24 ∧ k ≤ 24 ∧ q = (n : Rat) / 2 ^ k

/-- The subtraction of lines 94-95 stays within `int` for every rank of axis `d`: adjacent
entries of the stored sequence differ by a value between `INT_MIN` and `INT_MAX`. -/
def ExtentsFit (s : SparseDimPartitioner) (d : Nat) : Prop :=
  ∀ c, c < s._ranks_per_dim d →
    INT_MIN ≤ (s._rectangle_partition d).getD (c + 1) 0 - (s._rectangle_partition d).getD c 0 ∧
    (s._rectangle_partition d).getD (c + 1) 0 - (s._rectangle_partition d).getD c 0 ≤ INT_MAX

instance (s : SparseDimPartitioner) (d : Nat) : Decidable (ExtentsFit s d) :=
  inferInstanceAs (Decidable
    (∀ c, c < s._ranks_per_dim d →
      INT_MIN ≤ (s._rectangle_partition d).getD (c + 1) 0 -
        (s._rectangle_partition d).getD c 0 ∧
      (s._rectangle_partition d).getD (c + 1) 0 - (s._rectangle_partition d).getD c 0 ≤
        INT_MAX))

/-! ## Concrete inputs -/

/-- The object after the call `initialize_rec_partition( ri, rj, rk )`; the object itself
when the call reads past the end of a vector (no input below does). -/
def withPartition (s : SparseDimPartitioner) (ri rj rk : List Int) : SparseDimPartitioner :=
  (initialize_rec_partition s ri rj rk).getD s

/-- The 4×4×4 tile grid with workload 1 in every tile. -/
def uniformWorkload : View3 := View3.const 4 4 4 1

/-- Two ranks per axis on the 4×4×4 uniform grid (prefix-sum table built by
`computeFullPrefixSum`), started from the partition `[0, a, 4]` on every axis. -/
def uniformPartitioner (a : Int) : SparseDimPartitioner :=
  withPartition (mkPartitioner 2 2 2 (computeFullPrefixSum uniformWorkload))
    [0, a, 4] [0, a, 4] [0, a, 4]

/-- The 2×2×2 tile grid whose only workload is one unit in tile `(0, 0, 0)`. -/
def cornerWorkload : View3 := View3.ofLists 2 2 2 [[[1, 0], [0, 0]], [[0, 0], [0, 0]]]

/-- Two ranks per axis on the 2×2×2 corner grid, with the partition `[0, 1, 2]` on every
axis. -/
def cornerPartitioner : SparseDimPartitioner :=
  withPartition (mkPartitioner 2 2 2 (computeFullPrefixSum cornerWorkload))
    [0, 1, 2] [0, 1, 2] [0, 1, 2]

/-- The 1×1×1 tile grid whose tile holds `2^24 + 1` units. -/
def heavyWorkload : View3 := View3.ofLists 1 1 1 [[[16777217]]]

/-- One rank per axis on a 4×4×4 grid, with the partition `[0, 4]` on every axis. -/
def singleRankPartitioner : SparseDimPartitioner :=
  withPartition (mkPartitioner 1 1 1 (computeFullPrefixSum uniformWorkload))
    [0, 4] [0, 4] [0, 4]

/-- Ranks-per-dimension (2, 3, 3) on the 4×4×4 uniform grid, started from the partition
`[0, 0, 4]`, `[0, 0, 0, 4]`, `[0, 0, 0, 4]`, in which only the last rank of every axis
owns tiles. -/
def collapsedPartitioner : SparseDimPartitioner :=
  withPartition (mkPartitioner 2 3 3 (computeFullPrefixSum uniformWorkload))
    [0, 0, 4] [0, 0, 0, 4] [0, 0, 0, 4]

/-- Three ranks on axis 0 of a 4×1×1 grid, with a sequence on axis 0 that has four
entries, starts at `0` and ends at the tile extent `4`, and whose inner entries are
`INT_MIN` and `INT_MAX`. -/
def overflowPartitioner : SparseDimPartitioner :=
  withPartition (mkPartitioner 3 1 1 (computeFullPrefixSum (View3.const 4 1 1 1)))
    [0, -2147483648, 2147483647, 4] [0, 1] [0, 1]

/-- One rank per axis on the 4×4×4 uniform grid, with the sequence `[0, 536870912]`
(`2^29` tiles) installed on axis 0. -/
def wideRankPartitioner : SparseDimPartitioner :=
  withPartition (mkPartitioner 1 1 1 (computeFullPrefixSum uniformWorkload))
    [0, 536870912] [0, 4] [0, 4]

/-- A 4×4×4 prefix-sum table whose 64 cells all hold `0`; `g` is what a read outside
the extents returns. -/
def zeroCellsTable (g : Int) : View3 :=
  { extent0 := 4, extent1 := 4, extent2 := 4
    data := fun i j k =>
      if 0 ≤ i ∧ i < 4 ∧ 0 ≤ j ∧ j < 4 ∧ 0 ≤ k ∧ k < 4 then 0 else g }

/-- Three ranks per axis on the 4×4×4 grid with the all-zero table, with the partition
`[0, 4, 4, 4]` on every axis (rank 0 owns the grid, the other ranks are empty). -/
def zeroCellsPartitioner (g : Int) : SparseDimPartitioner :=
  withPartition (mkPartitioner 3 3 3 (zeroCellsTable g)) [0, 4, 4, 4] [0, 4, 4, 4] [0, 4, 4, 4]

/-- Particle positions: every particle sits at `(3/2, 3/2, 3/2)`. -/
def stackedParticles : Nat → Nat → Rat := fun _ _ => 3 / 2

end Cajita

namespace Cajita

/-! ## `computeFullPrefixSum`: the exact range -/

/-- An integer of magnitude below `2^24` is its own `float`. -/
theorem toFloat_eq_self (n : Int) (h : n.natAbs < 2 ^ 24) : toFloat n = n := by
  have he : floatExponent 128 n.natAbs = 0 := by
    show (if n.natAbs < 2 ^ 24 then 0 else floatExponent 127 (n.natAbs / 2) + 1) = 0
    rw [if_pos h]
  simp only [toFloat, he, pow_zero, Nat.div_one, Nat.mod_one, Nat.mul_zero, Nat.mul_one]
  simp [Int.sign_mul_abs]

/-- A value that an `int` can hold is converted to itself. -/
theorem castToInt_of_range (t : Int) (h0 : INT_MIN ≤ t) (h1 : t ≤ INT_MAX) :
    castToInt t = t := by
  unfold castToInt
  rw [if_pos ⟨h0, h1⟩]

/-- An `int` operation whose exact result an `int` can hold yields that result. -/
theorem wrapInt_of_range (x : Int) (h0 : INT_MIN ≤ x) (h1 : x ≤ INT_MAX) : wrapInt x = x := by
  unfold wrapInt
  unfold INT_MIN at h0
  unfold INT_MAX at h1
  omega

/-- The `float` addition of the scan functor is exact on non-negative operands whose sum is
below `2^24`. -/
theorem floatAddAssign_exact (update val : Int) (hu : 0 ≤ update) (hv : 0 ≤ val)
    (h : update + val < 2 ^ 24) : floatAddAssign update val = update + val := by
  unfold floatAddAssign
  rw [toFloat_eq_self update (by omega), toFloat_eq_self val (by omega),
    toFloat_eq_self _ (by omega), castToInt_of_range _ (by simp only [INT_MIN]; omega)
      (by simp only [INT_MAX]; omega)]

/-- A scan over a non-negative line whose total is below `2^24` yields the exact running
sum. -/
theorem parallel_scan_exact (line : Nat → Int) :
    ∀ n : Nat, (∀ x, x < n → 0 ≤ line x) → ∑ x in Finset.range n, line x < 2 ^ 24 →
      parallel_scan line n = ∑ x in Finset.range n, line x := by
  intro n
  induction n with
  | zero => intro _ _; rfl
  | succ n ih =>
    intro hnn hb
    rw [Finset.sum_range_succ] at hb ⊢
    have hl : 0 ≤ line n := hnn n (Nat.lt_succ_self n)
    have hs : 0 ≤ ∑ x in Finset.range n, line x :=
      Finset.sum_nonneg fun x hx => hnn x (Nat.lt_succ_of_lt (Finset.mem_range.1 hx))
    have ih1 := ih (fun x hx => hnn x (Nat.lt_succ_of_lt hx)) (by omega)
    simp only [parallel_scan]
    rw [ih1, floatAddAssign_exact _ _ hs hl hb]


/-- The value of a scan after `n` entries only depends on those `n` entries. -/
theorem parallel_scan_congr (f g : Nat → Int) :
    ∀ n : Nat, (∀ x, x < n → f x = g x) → parallel_scan f n = parallel_scan g n := by
  intro n
  induction n with
  | zero => intro _; rfl
  | succ n ih =>
    intro h
    simp only [parallel_scan]
    rw [ih fun x hx => h x (Nat.lt_succ_of_lt hx), h n (Nat.lt_succ_self n)]

/-- Sum of the entries `(0..i, j, k)` of a grid that is non-negative on the box
`[0, i] × [0, j] × [0, k]` is at most the inclusive prefix sum at `(i, j, k)`. -/
theorem lineSum_le_inclusivePrefix (w : Int → Int → Int → Int) (i j k : Nat)
    (hnn : ∀ a b c : Nat, a ≤ i → b ≤ j → c ≤ k → 0 ≤ w a b c) :
    ∑ a in Finset.range (i + 1), w a j k ≤ inclusivePrefix w i j k := by
  unfold inclusivePrefix
  apply Finset.sum_le_sum
  intro a ha
  have ha1 : a ≤ i := Nat.lt_succ_iff.1 (Finset.mem_range.1 ha)
  calc w a j k ≤ ∑ c in Finset.range (k + 1), w a j c :=
        Finset.single_le_sum (f := fun c : Nat => w a j c)
          (fun c hc => hnn a j c ha1 le_rfl (Nat.lt_succ_iff.1 (Finset.mem_range.1 hc)))
          (Finset.mem_range.2 (Nat.lt_succ_self k))
    _ ≤ ∑ b in Finset.range (j + 1), ∑ c in Finset.range (k + 1), w a b c :=
        Finset.single_le_sum (f := fun b : Nat => ∑ c in Finset.range (k + 1), w a b c)
          (fun b hb => Finset.sum_nonneg fun c hc =>
            hnn a b c ha1 (Nat.lt_succ_iff.1 (Finset.mem_range.1 hb))
              (Nat.lt_succ_iff.1 (Finset.mem_range.1 hc)))
          (Finset.mem_range.2 (Nat.lt_succ_self j))

/-- Sum of the entries `(0..i, 0..j, k)` of a grid that is non-negative on the box
`[0, i] × [0, j] × [0, k]` is at most the inclusive prefix sum at `(i, j, k)`. -/
theorem planeSum_le_inclusivePrefix (w : Int → Int → Int → Int) (i j k : Nat)
    (hnn : ∀ a b c : Nat, a ≤ i → b ≤ j → c ≤ k → 0 ≤ w a b c) :
    ∑ b in Finset.range (j + 1), ∑ a in Finset.range (i + 1), w a b k ≤
      inclusivePrefix w i j k := by
  unfold inclusivePrefix
  rw [Finset.sum_comm]
  apply Finset.sum_le_sum
  intro a ha
  apply Finset.sum_le_sum
  intro b hb
  exact Finset.single_le_sum (f := fun c : Nat => w a b c)
    (fun c hc => hnn a b c (Nat.lt_succ_iff.1 (Finset.mem_range.1 ha))
      (Nat.lt_succ_iff.1 (Finset.mem_range.1 hb)) (Nat.lt_succ_iff.1 (Finset.mem_range.1 hc)))
    (Finset.mem_range.2 (Nat.lt_succ_self k))

/-- Natural-number indices below the extents are in range. -/
theorem inRange_natCast (v : View3) (i j k : Nat) (hi : i < v.extent0) (hj : j < v.extent1)
    (hk : k < v.extent2) : v.inRange (i : Int) (j : Int) (k : Int) := by
  unfold View3.inRange
  omega

/-- Within the exact range the first pass leaves the running sums along axis 0. -/
theorem scanAxis0_exact (W : View3) (h : ExactRange W) (i j k : Nat)
    (hi : i < W.extent0) (hj : j < W.extent1) (hk : k < W.extent2) :
    (scanAxis0 W).data i j k = ∑ a in Finset.range (i + 1), W.data a j k := by
  have hnn : ∀ a b c : Nat, a ≤ i → b ≤ j → c ≤ k → 0 ≤ W.data a b c :=
    fun a b c ha hb hc => h.1 a b c (by omega) (by omega) (by omega)
  simp only [scanAxis0, inRange_natCast W i j k hi hj hk, if_true, Int.toNat_ofNat]
  apply parallel_scan_exact
  · intro x hx
    exact hnn x j k (by omega) le_rfl le_rfl
  · exact lt_of_le_of_lt (lineSum_le_inclusivePrefix W.data i j k hnn) (h.2 i j k hi hj hk)

/-- Within the exact range the second pass leaves the running sums along axes 0 and 1. -/
theorem scanAxis1_exact (W : View3) (h : ExactRange W) (i j k : Nat)
    (hi : i < W.extent0) (hj : j < W.extent1) (hk : k < W.extent2) :
    (scanAxis1 (scanAxis0 W)).data i j k =
      ∑ b in Finset.range (j + 1), ∑ a in Finset.range (i + 1), W.data a b k := by
  have hnn : ∀ a b c : Nat, a ≤ i → b ≤ j → c ≤ k → 0 ≤ W.data a b c :=
    fun a b c ha hb hc => h.1 a b c (by omega) (by omega) (by omega)
  have hin : (scanAxis0 W).inRange (i : Int) (j : Int) (k : Int) :=
    inRange_natCast W i j k hi hj hk
  have hline : ∀ x, x < j + 1 → (scanAxis0 W).data i x k =
      ∑ a in Finset.range (i + 1), W.data a x k :=
    fun x hx => scanAxis0_exact W h i x k hi (by omega) hk
  have hstep : (scanAxis1 (scanAxis0 W)).data i j k =
      parallel_scan (fun n : Nat => (scanAxis0 W).data i n k) (j + 1) := by
    simp only [scanAxis1, hin, if_true, Int.toNat_ofNat]
  rw [hstep, parallel_scan_congr _ (fun x : Nat => ∑ a in Finset.range (i + 1), W.data a x k)
    (j + 1) hline]
  apply parallel_scan_exact
  · intro x hx
    exact Finset.sum_nonneg fun a ha =>
      hnn a x k (Nat.lt_succ_iff.1 (Finset.mem_range.1 ha)) (by omega) le_rfl
  · exact lt_of_le_of_lt (planeSum_le_inclusivePrefix W.data i j k hnn) (h.2 i j k hi hj hk)

/-- Within the exact range (non-negative cells, prefix sums below `2^24`) the three scan
passes of `computeFullPrefixSum` leave the inclusive prefix sum in every in-range cell. -/
theorem computeFullPrefixSum_exact (W : View3) (h : ExactRange W) (i j k : Nat)
    (hi : i < W.extent0) (hj : j < W.extent1) (hk : k < W.extent2) :
    (computeFullPrefixSum W).data i j k = inclusivePrefix W.data i j k := by
  have hnn : ∀ a b c : Nat, a ≤ i → b ≤ j → c ≤ k → 0 ≤ W.data a b c :=
    fun a b c ha hb hc => h.1 a b c (by omega) (by omega) (by omega)
  have hin : (scanAxis1 (scanAxis0 W)).inRange (i : Int) (j : Int) (k : Int) :=
    inRange_natCast W i j k hi hj hk
  have hline : ∀ x, x < k + 1 → (scanAxis1 (scanAxis0 W)).data i j x =
      ∑ b in Finset.range (j + 1), ∑ a in Finset.range (i + 1), W.data a b x :=
    fun x hx => scanAxis1_exact W h i j x hi hj (by omega)
  have hstep : (computeFullPrefixSum W).data i j k =
      parallel_scan (fun n : Nat => (scanAxis1 (scanAxis0 W)).data i j n) (k + 1) := by
    simp only [computeFullPrefixSum, scanAxis2, hin, if_true, Int.toNat_ofNat]
  have hsum : ∑ c in Finset.range (k + 1), ∑ b in Finset.range (j + 1),
      ∑ a in Finset.range (i + 1), W.data a b c = inclusivePrefix W.data i j k := by
    unfold inclusivePrefix
    rw [Finset.sum_comm, Finset.sum_congr rfl fun b _ => Finset.sum_comm, Finset.sum_comm]
  rw [hstep, parallel_scan_congr _
    (fun x : Nat => ∑ b in Finset.range (j + 1), ∑ a in Finset.range (i + 1), W.data a b x)
    (k + 1) hline]
  rw [← hsum]
  apply parallel_scan_exact
  · intro x hx
    exact Finset.sum_nonneg fun b hb => Finset.sum_nonneg fun a ha =>
      hnn a b x (Nat.lt_succ_iff.1 (Finset.mem_range.1 ha))
        (Nat.lt_succ_iff.1 (Finset.mem_range.1 hb)) (by omega)
  · rw [hsum]
    exact h.2 i j k hi hj hk


/-! ## `computeFullPrefixSum`: the `float` temporary -/

/-- C1 fails on the code. On the 1×1×1 grid whose tile holds `2^24 + 1 = 16777217`
units, the inclusive prefix sum at `(0, 0, 0)` is 16777217, and the table that the three
scan passes leave holds 16777216 there: `const float val_i` rounds the cell. -/
theorem computeFullPrefixSum_float_rounding :
    inclusivePrefix heavyWorkload.data 0 0 0 = 16777217 ∧
    (computeFullPrefixSum heavyWorkload).data 0 0 0 = 16777216 := by
  decide

/-! ## The prefix-sum inverse -/

/-- Differencing an exact inclusive prefix-sum table by inclusion-exclusion gives the grid
back. -/
theorem prefixSumInverse_of_inclusive (w S : Int → Int → Int → Int) (i j k : Nat)
    (hS : ∀ a b c : Nat, a ≤ i → b ≤ j → c ≤ k → S a b c = inclusivePrefix w a b c) :
    prefixSumInverse S i j k = w i j k := by
  have e : ∀ n : Nat, ((n + 1 : Nat) : Int) - 1 = (n : Int) := fun n => by push_cast; ring
  have p : ∀ n : Nat, ¬ ((n : Int) < 0) := fun n => by omega
  have z : ((0 : Nat) : Int) - 1 < 0 := by decide
  rcases i with _ | i <;> rcases j with _ | j <;> rcases k with _ | k <;>
    simp only [prefixSumInverse, inclusionExclusion, triple, e, p, z, or_self, or_false,
      or_true, true_or, false_or, if_true, if_false] <;>
    simp only [hS, le_refl, Nat.le_succ, Nat.zero_le, inclusivePrefix, Finset.sum_range_succ,
      Finset.sum_add_distrib, Finset.sum_range_zero, Nat.le_add_right] <;>
    ring


/-- Within the exact range, differencing the table left by `computeFullPrefixSum` gives
the workload grid back. -/
theorem prefixSumInverse_exact (W : View3) (h : ExactRange W) (i j k : Nat)
    (hi : i < W.extent0) (hj : j < W.extent1) (hk : k < W.extent2) :
    prefixSumInverse (computeFullPrefixSum W).data i j k = W.data i j k :=
  prefixSumInverse_of_inclusive W.data _ i j k fun a b c ha hb hc =>
    computeFullPrefixSum_exact W h a b c (by omega) (by omega) (by omega)

/-- C3 fails on the code. On the 1×1×1 grid whose tile holds `2^24 + 1 = 16777217`
units, the inclusion-exclusion difference of the table left by `computeFullPrefixSum` at
`(0, 0, 0)` is 16777216, not the workload 16777217 of the tile. -/
theorem prefixSumInverse_float_rounding :
    heavyWorkload.data 0 0 0 = 16777217 ∧
    prefixSumInverse (computeFullPrefixSum heavyWorkload).data 0 0 0 = 16777216 := by
  decide

/-! ## `compute_sub_workload` -/

/-- The eight-term expression vanishes as soon as `start` and `end` agree on one axis. -/
theorem inclusionExclusion_eq_zero (S : Int → Int → Int → Int) (start stop : Nat → Int)
    (d : Nat) (hd : d < 3) (h : start d = stop d) : inclusionExclusion S start stop = 0 := by
  unfold inclusionExclusion
  interval_cases d <;> rw [h] <;> ring

/-- The axis chosen by the loop of lines 234-238 is one of `0, 1, 2` and differs from
`dim_j` and `dim_k`. -/
theorem freeAxis_spec (dim_j dim_k : Nat) :
    freeAxis 3 0 dim_j dim_k < 3 ∧ freeAxis 3 0 dim_j dim_k ≠ dim_j ∧
      freeAxis 3 0 dim_j dim_k ≠ dim_k := by
  simp only [freeAxis]
  split_ifs <;> omega

/-- The four-argument `compute_sub_workload` returns `0` for every table, every boundary
view and all arguments: lines 239 and 243 give `start` and `end` the same entry on the
remaining axis, so the eight terms cancel in pairs. -/
theorem compute_sub_workload4_eq_zero (s : SparseDimPartitioner) (dim_j : Nat) (j : Int)
    (dim_k : Nat) (k : Int) : compute_sub_workload4 s dim_j j dim_k k = 0 := by
  obtain ⟨h3, hj, hk⟩ := freeAxis_spec dim_j dim_k
  apply inclusionExclusion_eq_zero _ _ _ (freeAxis 3 0 dim_j dim_k) h3
  simp [startOf4, endOf4, setAt, hj, hk]

/-- A reduction of terms that are all `0` is `0`. -/
theorem parallel_reduce_zero (term : Nat → Int) (h : ∀ n, term n = 0) :
    ∀ n : Nat, parallel_reduce term n = 0 := by
  intro n
  induction n with
  | zero => rfl
  | succ n ih => simp [parallel_reduce, ih, h]

/-- The target `sum_ave_workload` of every axis sweep is `0`, whatever the table and the
boundaries: every term is the four-argument query, which is `0`. -/
theorem sum_ave_workload_eq_zero (s : SparseDimPartitioner) (di : Nat) :
    sum_ave_workload s di = 0 := by
  unfold sum_ave_workload
  apply parallel_reduce_zero
  intro n
  simp [compute_sub_workload4_eq_zero]

/-- The list sum of `sumRange` as a sum over a range. -/
theorem sumRange_eq_sum (lo hi : Int) (f : Int → Int) :
    sumRange lo hi f = ∑ n in Finset.range (hi - lo).toNat, f (lo + (n : Int)) := by
  unfold sumRange
  generalize (hi - lo).toNat = m
  induction m with
  | zero => simp
  | succ m ih => rw [List.range_succ, List.map_append, List.sum_append, ih,
      Finset.sum_range_succ]; simp

/-- Inclusion-exclusion over an inclusive prefix-sum table: for bounds
`0 ≤ start d ≤ stop d` the eight-term expression is the sum of the grid over
`start d < x_d ≤ stop d`, that is over the half-open box `[start d + 1, stop d + 1)` on
every axis. -/
theorem inclusionExclusion_eq_box (w S : Int → Int → Int → Int) (start stop : Nat → Int)
    (hS : ∀ a b c : Nat, (a : Int) ≤ stop 0 → (b : Int) ≤ stop 1 → (c : Int) ≤ stop 2 →
      S a b c = inclusivePrefix w a b c)
    (h0 : 0 ≤ start 0 ∧ start 0 ≤ stop 0) (h1 : 0 ≤ start 1 ∧ start 1 ≤ stop 1)
    (h2 : 0 ≤ start 2 ∧ start 2 ≤ stop 2) :
    inclusionExclusion S start stop =
      bruteForceBox w (fun d => start d + 1) (fun d => stop d + 1) := by
  obtain ⟨a0, ha0⟩ := Int.eq_ofNat_of_zero_le h0.1
  obtain ⟨a1, ha1⟩ := Int.eq_ofNat_of_zero_le h1.1
  obtain ⟨a2, ha2⟩ := Int.eq_ofNat_of_zero_le h2.1
  obtain ⟨d0, hd0⟩ := Int.eq_ofNat_of_zero_le (sub_nonneg.2 h0.2)
  obtain ⟨d1, hd1⟩ := Int.eq_ofNat_of_zero_le (sub_nonneg.2 h1.2)
  obtain ⟨d2, hd2⟩ := Int.eq_ofNat_of_zero_le (sub_nonneg.2 h2.2)
  have e0 : stop 0 = ((a0 + d0 : Nat) : Int) := by push_cast; omega
  have e1 : stop 1 = ((a1 + d1 : Nat) : Int) := by push_cast; omega
  have e2 : stop 2 = ((a2 + d2 : Nat) : Int) := by push_cast; omega
  have hT : ∀ a b c : Nat, a ≤ a0 + d0 → b ≤ a1 + d1 → c ≤ a2 + d2 →
      S a b c = inclusivePrefix w a b c :=
    fun a b c ha hb hc => hS a b c (by omega) (by omega) (by omega)
  have t : ∀ a d : Nat, (((a + d : Nat) : Int) + 1 - ((a : Int) + 1)).toNat = d := by
    intro a d; push_cast; omega
  have c : ∀ a n : Nat, (a : Int) + 1 + (n : Int) = ((a + 1 + n : Nat) : Int) := by
    intro a n; push_cast; ring
  simp only [bruteForceBox, sumRange_eq_sum, inclusionExclusion, ha0, ha1, ha2, e0, e1, e2, t,
    c]
  rw [hT _ _ _ le_rfl le_rfl le_rfl, hT _ _ _ (Nat.le_add_right _ _) le_rfl le_rfl,
    hT _ _ _ le_rfl (Nat.le_add_right _ _) le_rfl,
    hT _ _ _ le_rfl le_rfl (Nat.le_add_right _ _),
    hT _ _ _ (Nat.le_add_right _ _) (Nat.le_add_right _ _) le_rfl,
    hT _ _ _ le_rfl (Nat.le_add_right _ _) (Nat.le_add_right _ _),
    hT _ _ _ (Nat.le_add_right _ _) le_rfl (Nat.le_add_right _ _),
    hT _ _ _ (Nat.le_add_right _ _) (Nat.le_add_right _ _) (Nat.le_add_right _ _)]
  have r : ∀ a d : Nat, a + d + 1 = (a + 1) + d := by intro a d; omega
  simp only [inclusivePrefix, r, Finset.sum_range_add, Finset.sum_add_distrib]
  ring

/-- What the six-argument `compute_sub_workload` computes over an inclusive prefix-sum
table: for looked-up bounds `0 ≤ start d ≤ end d` it returns the workload of the tiles
`start d < x_d ≤ end d`, the box `[start d + 1, end d + 1)` and not `[start d, end d)`. -/
theorem compute_sub_workload6_eq_shifted_box (s : SparseDimPartitioner)
    (w : Int → Int → Int → Int) (dim_i : Nat) (i : Int) (dim_j : Nat) (j : Int) (dim_k : Nat)
    (k : Int)
    (hS : ∀ a b c : Nat, (a : Int) ≤ endOf6 s dim_i i dim_j j dim_k k 0 →
      (b : Int) ≤ endOf6 s dim_i i dim_j j dim_k k 1 →
      (c : Int) ≤ endOf6 s dim_i i dim_j j dim_k k 2 →
      s._workload_prefix_sum.data a b c = inclusivePrefix w a b c)
    (h0 : 0 ≤ startOf6 s dim_i i dim_j j dim_k k 0 ∧
      startOf6 s dim_i i dim_j j dim_k k 0 ≤ endOf6 s dim_i i dim_j j dim_k k 0)
    (h1 : 0 ≤ startOf6 s dim_i i dim_j j dim_k k 1 ∧
      startOf6 s dim_i i dim_j j dim_k k 1 ≤ endOf6 s dim_i i dim_j j dim_k k 1)
    (h2 : 0 ≤ startOf6 s dim_i i dim_j j dim_k k 2 ∧
      startOf6 s dim_i i dim_j j dim_k k 2 ≤ endOf6 s dim_i i dim_j j dim_k k 2) :
    compute_sub_workload6 s dim_i i dim_j j dim_k k =
      bruteForceBox w (fun d => startOf6 s dim_i i dim_j j dim_k k d + 1)
        (fun d => endOf6 s dim_i i dim_j j dim_k k d + 1) :=
  inclusionExclusion_eq_box w _ _ _ hS h0 h1 h2

/-- C9 fails on the code. On the uniform 4×4×4 grid with the partition `[0, 2, 4]` on
every axis, the pencil block of `(dim_j, j) = (1, 1)`, `(dim_k, k) = (2, 1)` has the bounds
`[0, 2)` on the axes 1 and 2 and spans `[0, 4)` on axis 0; its workload is 16, and the
four-argument `compute_sub_workload` returns 0. -/
theorem compute_sub_workload4_pencil_block :
    compute_sub_workload4 (uniformPartitioner 2) 1 1 2 1 = 0 ∧
    startOf4 (uniformPartitioner 2) 1 1 2 1 1 = 0 ∧
    endOf4 (uniformPartitioner 2) 1 1 2 1 1 = 2 ∧
    startOf4 (uniformPartitioner 2) 1 1 2 1 2 = 0 ∧
    endOf4 (uniformPartitioner 2) 1 1 2 1 2 = 2 ∧
    globalTiles (uniformPartitioner 2) 0 = 4 ∧
    bruteForceBox uniformWorkload.data (triple 0 0 0) (triple 4 2 2) = 16 := by
  decide

/-- C2 fails on the code. On the 2×2×2 grid whose only workload is one unit in tile
`(0, 0, 0)`, with the inclusive prefix-sum table of that grid and the boundaries
`[0, 1, 2]` on every axis, the query for the rank indices `(1, 1, 1)` looks up the bounds
`[0, 1)` on every axis; the brute-force sum over that box is 1 and
`compute_sub_workload` returns 0. -/
theorem compute_sub_workload6_off_by_one :
    (∀ i ∈ List.range 2, ∀ j ∈ List.range 2, ∀ k ∈ List.range 2,
      cornerPartitioner._workload_prefix_sum.data i j k =
        inclusivePrefix cornerWorkload.data i j k) ∧
    (∀ d ∈ List.range 3, startOf6 cornerPartitioner 0 1 1 1 2 1 d = 0 ∧
      endOf6 cornerPartitioner 0 1 1 1 2 1 d = 1) ∧
    bruteForceBox cornerWorkload.data (startOf6 cornerPartitioner 0 1 1 1 2 1)
      (endOf6 cornerPartitioner 0 1 1 1 2 1) = 1 ∧
    compute_sub_workload6 cornerPartitioner 0 1 1 1 2 1 = 0 := by
  decide

/-! ## Termination and frame of `optimizePartition` -/

/-- A boundary search whose fuel exceeds `last_diff` reaches its `break`. -/
theorem boundarySearch_isSome (s : SparseDimPartitioner) (di : Nat) (sum_ave : Int) :
    ∀ (fuel : Nat) (point_i last_diff : Int), last_diff.toNat < fuel →
      ∃ p, boundarySearch s di sum_ave fuel point_i last_diff = some p := by
  intro fuel
  induction fuel with
  | zero => intro _ _ h; omega
  | succ n ih =>
    intro point_i last_diff h
    simp only [boundarySearch]
    split
    · rename_i hlt
      apply ih
      have h0 : 0 ≤ |sum_current_workload s di point_i - sum_ave| := abs_nonneg _
      omega
    · exact ⟨_, rfl⟩

/-- With the fuel and the initial `last_diff` that `optimizePartition` uses, every
boundary search reaches its `break`. -/
theorem boundarySearch_total (s : SparseDimPartitioner) (di : Nat) (sum_ave point_i : Int) :
    ∃ p, boundarySearch s di sum_ave searchFuel point_i INT_MAX = some p := by
  apply boundarySearch_isSome
  simp [searchFuel, INT_MAX]

/-- The sweep over the internal boundaries of one axis always completes, and it changes
nothing but `_rectangle_partition_dev`. -/
theorem searchBoundaries_frame (di : Nat) (sum_ave : Int) :
    ∀ (n current_rank : Nat) (point_i : Int) (s : SparseDimPartitioner),
      ∃ r, searchBoundaries di sum_ave n current_rank point_i s = some r ∧
        r.1._rectangle_partition = s._rectangle_partition ∧
        r.1._ranks_per_dim = s._ranks_per_dim ∧
        r.1._ranks_per_dim_dev = s._ranks_per_dim_dev ∧
        r.1._workload_prefix_sum = s._workload_prefix_sum := by
  intro n
  induction n with
  | zero => intro _ point_i s; exact ⟨(s, point_i), rfl, rfl, rfl, rfl, rfl⟩
  | succ n ih =>
    intro current_rank point_i s
    obtain ⟨p, hp⟩ := boundarySearch_total s di sum_ave point_i
    simp only [searchBoundaries, hp]
    exact ih _ _ _

/-- With a rank count of at least `1` on the axis, line 312 does not divide by zero. -/
theorem not_divisionByZero (s : SparseDimPartitioner) (di : Nat)
    (h : 1 ≤ s._ranks_per_dim di) : ¬ divisionByZero s di := by
  unfold divisionByZero
  omega

/-- One axis sweep of `optimizePartition` that does not divide by zero completes, and it
changes nothing but `_rectangle_partition_dev`. -/
theorem optimizeAxis_frame (s : SparseDimPartitioner) (di : Nat) (hz : ¬ divisionByZero s di) :
    ∃ s1, optimizeAxis s di = some s1 ∧
      s1._rectangle_partition = s._rectangle_partition ∧
      s1._ranks_per_dim = s._ranks_per_dim ∧
      s1._ranks_per_dim_dev = s._ranks_per_dim_dev ∧
      s1._workload_prefix_sum = s._workload_prefix_sum := by
  obtain ⟨r, hr, h⟩ :=
    searchBoundaries_frame di (sum_ave_workload s di) (s._ranks_per_dim di - 1) 0 1 s
  exact ⟨r.1, by simp [optimizeAxis, hr, hz], h⟩

/-- With a rank count of at least `1` on every axis `optimizePartition` completes, and it
changes nothing but `_rectangle_partition_dev`: the host sequences `_rectangle_partition`,
the rank counts and the prefix-sum table are the ones it started from. -/
theorem optimizePartition_frame (s : SparseDimPartitioner) (hr : PositiveRanks s) :
    ∃ s3, optimizePartition s = some s3 ∧
      s3._rectangle_partition = s._rectangle_partition ∧
      s3._ranks_per_dim = s._ranks_per_dim ∧
      s3._ranks_per_dim_dev = s._ranks_per_dim_dev ∧
      s3._workload_prefix_sum = s._workload_prefix_sum := by
  obtain ⟨s1, h1, a1, b1, c1, d1⟩ :=
    optimizeAxis_frame s 0 (not_divisionByZero s 0 (hr 0 (by decide)).1)
  obtain ⟨s2, h2, a2, b2, c2, d2⟩ :=
    optimizeAxis_frame s1 1 (not_divisionByZero s1 1 (by rw [b1]; exact (hr 1 (by decide)).1))
  obtain ⟨s3, h3, a3, b3, c3, d3⟩ :=
    optimizeAxis_frame s2 2
      (not_divisionByZero s2 2 (by rw [b2, b1]; exact (hr 2 (by decide)).1))
  refine ⟨s3, by simp [optimizePartition, h1, h2, h3], ?_, ?_, ?_, ?_⟩
  · rw [a3, a2, a1]
  · rw [b3, b2, b1]
  · rw [c3, c2, c1]
  · rw [d3, d2, d1]

/-- The `RectPartition` invariant only depends on the host sequences, the rank counts and
the extents of the prefix-sum table. -/
theorem RectPartitionInvariant_congr (s t : SparseDimPartitioner)
    (hp : t._rectangle_partition = s._rectangle_partition)
    (hr : t._ranks_per_dim = s._ranks_per_dim)
    (hw : t._workload_prefix_sum = s._workload_prefix_sum)
    (h : RectPartitionInvariant s) : RectPartitionInvariant t := by
  unfold RectPartitionInvariant RectPartitionAxis BoundaryShape globalTiles at *
  rw [hp, hr, hw]
  exact h

/-- The host sequences `_rectangle_partition`, which `optimizePartition` never writes,
satisfy the `RectPartition` invariant after the run when they did before.  (The
boundaries that the run computes are in `_rectangle_partition_dev`.) -/
theorem optimizePartition_host_invariant (s : SparseDimPartitioner) (hr : PositiveRanks s)
    (h : RectPartitionInvariant s) :
    ∃ s3, optimizePartition s = some s3 ∧ RectPartitionInvariant s3 := by
  obtain ⟨s3, h3, a, b, _, d⟩ := optimizePartition_frame s hr
  exact ⟨s3, h3, RectPartitionInvariant_congr s s3 a b d h⟩

/-! ## `optimizePartition` and the stored partition -/

/-- A boundary search never ends below the position it started from. -/
theorem boundarySearch_ge (s : SparseDimPartitioner) (di : Nat) (sum_ave : Int) :
    ∀ (fuel : Nat) (point_i last_diff p : Int),
      boundarySearch s di sum_ave fuel point_i last_diff = some p → point_i ≤ p := by
  intro fuel
  induction fuel with
  | zero => intro _ _ _ h; simp [boundarySearch] at h
  | succ n ih =>
    intro point_i last_diff p h
    simp only [boundarySearch] at h
    split at h
    · have := ih _ _ _ h
      omega
    · simp only [Option.some.injEq] at h
      omega

/-- A boundary search whose first round finds `diff < last_diff` ends above the position
it started from; that round reads the rows `point_i` and `point_i - 1` of the kernel view
only. -/
theorem boundarySearch_first_round (s : SparseDimPartitioner) (di : Nat) (sum_ave : Int)
    (fuel : Nat) (point_i last_diff p : Int)
    (hd : |sum_current_workload s di point_i - sum_ave| < last_diff)
    (h : boundarySearch s di sum_ave fuel point_i last_diff = some p) : point_i + 1 ≤ p := by
  cases fuel with
  | zero => simp [boundarySearch] at h
  | succ n =>
    simp only [boundarySearch, hd, if_true] at h
    exact boundarySearch_ge s di sum_ave n _ _ _ h

/-- The sweep over the internal boundaries of axis `di` leaves the other columns of the
kernel view as they were. -/
theorem searchBoundaries_dev_other (di : Nat) (sum_ave : Int) :
    ∀ (n current_rank : Nat) (point_i : Int) (s : SparseDimPartitioner)
      (r : SparseDimPartitioner × Int),
      searchBoundaries di sum_ave n current_rank point_i s = some r →
        ∀ (id : Int) (d : Nat), d ≠ di →
          r.1._rectangle_partition_dev.data id d = s._rectangle_partition_dev.data id d := by
  intro n
  induction n with
  | zero =>
    intro _ _ s r h id d _
    simp only [searchBoundaries, Option.some.injEq] at h
    rw [← h]
  | succ n ih =>
    intro current_rank point_i s r h id d hd
    obtain ⟨p, hp⟩ := boundarySearch_total s di sum_ave point_i
    simp only [searchBoundaries, hp] at h
    rw [ih _ _ _ _ h id d hd]
    simp [View2.set, hd]

/-- One axis sweep of `optimizePartition` leaves the other columns of the kernel view as
they were. -/
theorem optimizeAxis_dev_other (s s1 : SparseDimPartitioner) (di : Nat)
    (h : optimizeAxis s di = some s1) (id : Int) (d : Nat) (hd : d ≠ di) :
    s1._rectangle_partition_dev.data id d = s._rectangle_partition_dev.data id d := by
  unfold optimizeAxis at h
  split at h
  · exact absurd h (by simp)
  · simp only [Option.map_eq_some'] at h
    obtain ⟨r, hr, rfl⟩ := h
    exact searchBoundaries_dev_other di _ _ _ _ _ r hr id d hd

/-- On an axis with two ranks whose first round finds `diff < INT_MAX`, the one boundary
search commits a cut of at least `1`, whatever the later rounds read. -/
theorem optimizeAxis_first_cut (s : SparseDimPartitioner) (di : Nat)
    (h2 : s._ranks_per_dim di = 2)
    (hd : |sum_current_workload s di 1 - sum_ave_workload s di| < INT_MAX) :
    ∃ s1, optimizeAxis s di = some s1 ∧ 1 ≤ s1._rectangle_partition_dev.data 0 di := by
  obtain ⟨p, hp⟩ := boundarySearch_total s di (sum_ave_workload s di) 1
  have hge := boundarySearch_first_round s di _ _ _ _ p hd hp
  have hz : ¬ divisionByZero s di := not_divisionByZero s di (by omega)
  refine ⟨_, by
    simp only [optimizeAxis, hz, if_false, h2, searchBoundaries, hp, Option.map_some']; rfl, ?_⟩
  simp only [View2.set]
  simp
  omega

/-- With two ranks on axis 0 and a first round on axis 0 that finds `diff < INT_MAX`,
`optimizePartition` ends with a committed first cut of at least `1` in the kernel view
and with the stored sequences it started from, whatever any access outside the views
returns. -/
theorem optimizePartition_first_cut (s : SparseDimPartitioner)
    (h2 : s._ranks_per_dim 0 = 2) (hr1 : 1 ≤ s._ranks_per_dim 1) (hr2 : 1 ≤ s._ranks_per_dim 2)
    (hd : |sum_current_workload s 0 1 - sum_ave_workload s 0| < INT_MAX) :
    ∃ s3, optimizePartition s = some s3 ∧ 1 ≤ s3._rectangle_partition_dev.data 0 0 ∧
      s3._rectangle_partition = s._rectangle_partition := by
  obtain ⟨s1, h1, c1⟩ := optimizeAxis_first_cut s 0 h2 hd
  obtain ⟨_, g1, a1, b1, _⟩ := optimizeAxis_frame s 0 (not_divisionByZero s 0 (by omega))
  rw [h1, Option.some.injEq] at g1
  subst g1
  obtain ⟨s2, g2, a2, b2, _⟩ :=
    optimizeAxis_frame s1 1 (not_divisionByZero s1 1 (by rw [b1]; exact hr1))
  obtain ⟨s3, g3, a3, _⟩ :=
    optimizeAxis_frame s2 2 (not_divisionByZero s2 2 (by rw [b2, b1]; exact hr2))
  refine ⟨s3, by simp [optimizePartition, h1, g2, g3], ?_, by rw [a3, a2, a1]⟩
  rw [optimizeAxis_dev_other s2 s3 2 g3 0 0 (by decide),
    optimizeAxis_dev_other s1 s2 1 g2 0 0 (by decide)]
  exact c1

/-- The extents that `ownedTilesPerDimension` returns are the same before and after
`optimizePartition`, for every state with at least one rank per axis and every rank
coordinate. -/
theorem optimizePartition_ownedTiles (s : SparseDimPartitioner) (hr : PositiveRanks s)
    (cart_rank : Nat → Nat) :
    ∃ s3, optimizePartition s = some s3 ∧
      ownedTilesPerDimension s3 cart_rank = ownedTilesPerDimension s cart_rank := by
  obtain ⟨s3, h3, a, _⟩ := optimizePartition_frame s hr
  exact ⟨s3, h3, by unfold ownedTilesPerDimension; rw [a]⟩

/-- C5 fails on the code. On the uniform 4×4×4 scenario with two ranks per axis, started
from the valid partition `[0, 0, 4]` on every axis: the first boundary search on axis 0
breaks at `point_i = 2` and commits the cut `1` into `_rectangle_partition_dev( 0, 0 )`,
while the stored sequence of axis 0 after `optimizePartition` is still `[0, 0, 4]`, so
`ownedTilesPerDimension` still returns the extent `0` for the rank coordinate
`(0, 0, 0)`.  (The second round of the search reads row 2 of the two-row kernel view;
`optimizePartition_first_cut` gives a committed cut of at least `1` and the unchanged
stored sequence whatever that access returns.) -/
theorem optimizePartition_host_not_updated :
    RectPartitionInvariant (uniformPartitioner 0) ∧
    boundarySearch (uniformPartitioner 0) 0 (sum_ave_workload (uniformPartitioner 0) 0)
      searchFuel 1 INT_MAX = some 2 ∧
    (optimizePartition (uniformPartitioner 0)).map
      (fun s3 => (s3._rectangle_partition_dev.data 0 0, s3._rectangle_partition 0,
        ownedTilesPerDimension s3 (cartCoord 0 0 0) 0)) = some (1, [0, 0, 4], 0) := by
  decide

/-- C6 fails on the code. Scenario: ranks-per-dimension (2, 2, 2), 4×4×4 tiles, workload 1
in every tile, prefix-sum table built by `computeFullPrefixSum`, started from the valid
partition `[0, 1, 4]` on every axis.  After `optimizePartition` the stored sequences are
still `[0, 1, 4]` and `ownedTilesPerDimension` returns `(1, 1, 1)` for the rank coordinate
`(0, 0, 0)`. -/
theorem optimizePartition_uniform_scenario :
    RectPartitionInvariant (uniformPartitioner 1) ∧
    (optimizePartition (uniformPartitioner 1)).map
      (fun s3 => (s3._rectangle_partition 0, s3._rectangle_partition 1,
        s3._rectangle_partition 2, ownedTilesPerDimension s3 (cartCoord 0 0 0) 0,
        ownedTilesPerDimension s3 (cartCoord 0 0 0) 1,
        ownedTilesPerDimension s3 (cartCoord 0 0 0) 2)) =
      some ([0, 1, 4], [0, 1, 4], [0, 1, 4], 1, 1, 1) := by
  decide

/-! ## Ownership extents -/

/-- Telescoping of the extents of one axis: the extents of the ranks `0 .. n-1` add up to
the difference of the outer boundaries. -/
theorem sum_extents (l : List Int) (n : Nat) :
    ∑ c in Finset.range n, (l.getD (c + 1) 0 - l.getD c 0) = l.getD n 0 - l.getD 0 0 :=
  Finset.sum_range_sub (fun c => l.getD c 0) n

/-- Within `ExtentsFit` the extent that `ownedTilesPerDimension` returns for a rank of
the axis is the exact difference of the two boundaries. -/
theorem ownedTilesPerDimension_exact (s : SparseDimPartitioner) (cart_rank : Nat → Nat)
    (d : Nat) (hd : d < 3) (hf : ExtentsFit s d) (hc : cart_rank d < s._ranks_per_dim d) :
    ownedTilesPerDimension s cart_rank d =
      (s._rectangle_partition d).getD (cart_rank d + 1) 0 -
        (s._rectangle_partition d).getD (cart_rank d) 0 := by
  unfold ownedTilesPerDimension
  rw [if_pos hd]
  exact wrapInt_of_range _ (hf _ hc).1 (hf _ hc).2

/-- C7 fails as stated. Three ranks on axis 0 of a 4×1×1 grid with the sequence
`[0, INT_MIN, INT_MAX, 4]` on axis 0, which has four entries, first entry `0` and last
entry the tile extent `4`: the `int` subtractions of `ownedTilesPerDimension` overflow,
the three extents of axis 0 are `INT_MIN`, `-1` and `-2147483643`, and the sum over the
rank coordinates is `-4294967292`, not the number `4` of tiles.  The first and the third
subtraction do not overflow, and with them no `int` result `v` of the second one makes
the sum `4`. -/
theorem ownedTiles_coverage_overflow :
    (BoundaryShape overflowPartitioner 0 ∧ BoundaryShape overflowPartitioner 1 ∧
      BoundaryShape overflowPartitioner 2) ∧
    (List.range 3).map
        (fun c : Nat => ownedTilesPerDimension overflowPartitioner (cartCoord c 0 0) 0) =
      [-2147483648, -1, -2147483643] ∧
    ∑ c0 in Finset.range (overflowPartitioner._ranks_per_dim 0),
      ∑ c1 in Finset.range (overflowPartitioner._ranks_per_dim 1),
      ∑ c2 in Finset.range (overflowPartitioner._ranks_per_dim 2),
        ownedTilesPerDimension overflowPartitioner (cartCoord c0 c1 c2) 0 *
          ownedTilesPerDimension overflowPartitioner (cartCoord c0 c1 c2) 1 *
          ownedTilesPerDimension overflowPartitioner (cartCoord c0 c1 c2) 2 = -4294967292 ∧
    (globalTiles overflowPartitioner 0 : Int) * (globalTiles overflowPartitioner 1 : Int) *
      (globalTiles overflowPartitioner 2 : Int) = 4 ∧
    ∀ v : Int, v ≤ INT_MAX →
      ownedTilesPerDimension overflowPartitioner (cartCoord 0 0 0) 0 + v +
        ownedTilesPerDimension overflowPartitioner (cartCoord 2 0 0) 0 ≠ 4 := by
  refine ⟨by decide, by decide, by decide, by decide, ?_⟩
  have a : ownedTilesPerDimension overflowPartitioner (cartCoord 0 0 0) 0 = -2147483648 := by
    decide
  have b : ownedTilesPerDimension overflowPartitioner (cartCoord 2 0 0) 0 = -2147483643 := by
    decide
  intro v hv
  rw [a, b]
  unfold INT_MAX at hv
  omega

/-- C7, amended. Coverage: when the stored sequence of every axis has
`_ranks_per_dim[d] + 1` entries, first entry `0` and last entry the tile extent of the
axis, and adjacent entries differ by an `int` value (so that the subtraction of lines
94-95 does not overflow), the products of the three components of
`ownedTilesPerDimension`, summed over all rank coordinates, give the product of the three
tile extents. -/
theorem ownedTiles_coverage (s : SparseDimPartitioner)
    (h0 : BoundaryShape s 0) (h1 : BoundaryShape s 1) (h2 : BoundaryShape s 2)
    (e0 : ExtentsFit s 0) (e1 : ExtentsFit s 1) (e2 : ExtentsFit s 2) :
    ∑ c0 in Finset.range (s._ranks_per_dim 0), ∑ c1 in Finset.range (s._ranks_per_dim 1),
      ∑ c2 in Finset.range (s._ranks_per_dim 2),
        ownedTilesPerDimension s (cartCoord c0 c1 c2) 0 *
          ownedTilesPerDimension s (cartCoord c0 c1 c2) 1 *
          ownedTilesPerDimension s (cartCoord c0 c1 c2) 2 =
      (globalTiles s 0 : Int) * (globalTiles s 1 : Int) * (globalTiles s 2 : Int) := by
  obtain ⟨_, f0, l0⟩ := h0
  obtain ⟨_, f1, l1⟩ := h1
  obtain ⟨_, f2, l2⟩ := h2
  have hsum :
      ∑ c0 in Finset.range (s._ranks_per_dim 0), ∑ c1 in Finset.range (s._ranks_per_dim 1),
        ∑ c2 in Finset.range (s._ranks_per_dim 2),
          ownedTilesPerDimension s (cartCoord c0 c1 c2) 0 *
            ownedTilesPerDimension s (cartCoord c0 c1 c2) 1 *
            ownedTilesPerDimension s (cartCoord c0 c1 c2) 2 =
      ∑ c0 in Finset.range (s._ranks_per_dim 0), ∑ c1 in Finset.range (s._ranks_per_dim 1),
        ∑ c2 in Finset.range (s._ranks_per_dim 2),
          ((s._rectangle_partition 0).getD (c0 + 1) 0 - (s._rectangle_partition 0).getD c0 0) *
            ((s._rectangle_partition 1).getD (c1 + 1) 0 -
              (s._rectangle_partition 1).getD c1 0) *
            ((s._rectangle_partition 2).getD (c2 + 1) 0 -
              (s._rectangle_partition 2).getD c2 0) := by
    refine Finset.sum_congr rfl fun c0 hc0 => Finset.sum_congr rfl fun c1 hc1 =>
      Finset.sum_congr rfl fun c2 hc2 => ?_
    rw [ownedTilesPerDimension_exact s (cartCoord c0 c1 c2) 0 (by decide) e0
        (Finset.mem_range.1 hc0),
      ownedTilesPerDimension_exact s (cartCoord c0 c1 c2) 1 (by decide) e1
        (Finset.mem_range.1 hc1),
      ownedTilesPerDimension_exact s (cartCoord c0 c1 c2) 2 (by decide) e2
        (Finset.mem_range.1 hc2)]
    rfl
  rw [hsum]
  simp only [← Finset.mul_sum, ← Finset.sum_mul]
  rw [sum_extents, sum_extents, sum_extents, f0, f1, f2, l0, l1, l2]
  ring

/-- Witness for the amended C7 on the uniform 4×4×4 scenario started from `[0, 1, 4]`. -/
theorem ownedTiles_coverage_witness :
    (BoundaryShape (uniformPartitioner 1) 0 ∧ BoundaryShape (uniformPartitioner 1) 1 ∧
      BoundaryShape (uniformPartitioner 1) 2 ∧ ExtentsFit (uniformPartitioner 1) 0 ∧
      ExtentsFit (uniformPartitioner 1) 1 ∧ ExtentsFit (uniformPartitioner 1) 2) ∧
    ∑ c0 in Finset.range ((uniformPartitioner 1)._ranks_per_dim 0),
      ∑ c1 in Finset.range ((uniformPartitioner 1)._ranks_per_dim 1),
      ∑ c2 in Finset.range ((uniformPartitioner 1)._ranks_per_dim 2),
        ownedTilesPerDimension (uniformPartitioner 1) (cartCoord c0 c1 c2) 0 *
          ownedTilesPerDimension (uniformPartitioner 1) (cartCoord c0 c1 c2) 1 *
          ownedTilesPerDimension (uniformPartitioner 1) (cartCoord c0 c1 c2) 2 =
      (globalTiles (uniformPartitioner 1) 0 : Int) * (globalTiles (uniformPartitioner 1) 1 : Int) *
        (globalTiles (uniformPartitioner 1) 2 : Int) :=
  ⟨by decide,
    ownedTiles_coverage (uniformPartitioner 1) (by decide) (by decide) (by decide) (by decide)
      (by decide) (by decide)⟩

/-- C10 fails as stated. With the sequence `[0, 536870912]` on axis 0 and the tile-bit
constant 2, `ownedTilesPerDimension` returns `536870912` for axis 0 and the `int` shift
of `ownedCellsPerDimension` leaves `INT_MIN`, not `536870912 * 2^2 = 2147483648`. -/
theorem ownedCells_shift_overflow :
    ownedTilesPerDimension wideRankPartitioner (cartCoord 0 0 0) 0 = 536870912 ∧
    ownedCellsPerDimension 2 wideRankPartitioner (cartCoord 0 0 0) 0 = -2147483648 ∧
    ownedCellsPerDimension 2 wideRankPartitioner (cartCoord 0 0 0) 0 ≠
      ownedTilesPerDimension wideRankPartitioner (cartCoord 0 0 0) 0 * 2 ^ 2 := by
  decide

/-- C10, amended. For every partition, rank coordinate and axis `d` for which
component `d` of `ownedTilesPerDimension` multiplied by `2 ^ cell_bits_per_tile_dim` is an
`int` value, component `d` of `ownedCellsPerDimension` is that product. -/
theorem ownedCells_eq_ownedTiles_shift (cell_bits_per_tile_dim : Nat)
    (s : SparseDimPartitioner) (cart_rank : Nat → Nat) (d : Nat)
    (h0 : INT_MIN ≤ ownedTilesPerDimension s cart_rank d * 2 ^ cell_bits_per_tile_dim)
    (h1 : ownedTilesPerDimension s cart_rank d * 2 ^ cell_bits_per_tile_dim ≤ INT_MAX) :
    ownedCellsPerDimension cell_bits_per_tile_dim s cart_rank d =
      ownedTilesPerDimension s cart_rank d * 2 ^ cell_bits_per_tile_dim := by
  unfold ownedCellsPerDimension
  split
  · rw [Int.shiftLeft_eq_mul_pow]
    push_cast
    exact wrapInt_of_range _ h0 h1
  · rename_i hd
    simp [ownedTilesPerDimension, hd]

/-- Witness for the amended C10: the rank `(0, 0, 0)` of the uniform 4×4×4 scenario
started from `[0, 1, 4]`, with the tile-bit constant 2. -/
theorem ownedCells_eq_ownedTiles_shift_witness :
    (INT_MIN ≤ ownedTilesPerDimension (uniformPartitioner 1) (cartCoord 0 0 0) 0 * 2 ^ 2 ∧
      ownedTilesPerDimension (uniformPartitioner 1) (cartCoord 0 0 0) 0 * 2 ^ 2 ≤ INT_MAX) ∧
    ownedCellsPerDimension 2 (uniformPartitioner 1) (cartCoord 0 0 0) 0 =
      ownedTilesPerDimension (uniformPartitioner 1) (cartCoord 0 0 0) 0 * 2 ^ 2 :=
  ⟨by decide,
    ownedCells_eq_ownedTiles_shift 2 (uniformPartitioner 1) (cartCoord 0 0 0) 0 (by decide)
      (by decide)⟩

/-! ## `initialize_rec_partition` -/

/-- C8, amended. `initialize_rec_partition` performs no validation: for every triple of
sequences that have at least `_ranks_per_dim[d]` entries each (so that the copy loop of
lines 132-136 stays inside the vectors), whatever their lengths otherwise and whether or
not they are non-decreasing, the call stores them as the sequences of the axes 0, 1, 2,
allocates the kernel view with `max_size` rows, and fills its cell `(id, d)` with entry
`id` of the sequence of axis `d` for every `id < _ranks_per_dim[d]`. -/
theorem initialize_rec_partition_installs (s : SparseDimPartitioner)
    (rec_partition_i rec_partition_j rec_partition_k : List Int) (d id : Nat)
    (hd : d < 3) (hid : id < s._ranks_per_dim d)
    (hi : s._ranks_per_dim 0 ≤ rec_partition_i.length)
    (hj : s._ranks_per_dim 1 ≤ rec_partition_j.length)
    (hk : s._ranks_per_dim 2 ≤ rec_partition_k.length) :
    ∃ t, initialize_rec_partition s rec_partition_i rec_partition_j rec_partition_k = some t ∧
      t._rectangle_partition 0 = rec_partition_i ∧
      t._rectangle_partition 1 = rec_partition_j ∧
      t._rectangle_partition 2 = rec_partition_k ∧
      t._rectangle_partition_dev.extent0 = maxRanks s._ranks_per_dim ∧
      id < (t._rectangle_partition d).length ∧
      t._rectangle_partition_dev.data id d = (t._rectangle_partition d).getD id 0 := by
  refine ⟨_, by simp only [initialize_rec_partition]; rw [if_pos ⟨hi, hj, hk⟩],
    rfl, rfl, rfl, rfl, ?_, ?_⟩
  · interval_cases d
    · exact lt_of_lt_of_le hid hi
    · exact lt_of_lt_of_le hid hj
    · exact lt_of_lt_of_le hid hk
  · simp [hd, hid]

/-- Witness for the amended C8: a decreasing sequence on axis 0 is installed as given. -/
theorem initialize_rec_partition_installs_witness :
    ((0 : Nat) < 3 ∧ (0 : Nat) < singleRankPartitioner._ranks_per_dim 0 ∧
      singleRankPartitioner._ranks_per_dim 0 ≤ ([3, 1] : List Int).length ∧
      singleRankPartitioner._ranks_per_dim 1 ≤ ([0, 4] : List Int).length ∧
      singleRankPartitioner._ranks_per_dim 2 ≤ ([0, 4] : List Int).length) ∧
    ∃ t, initialize_rec_partition singleRankPartitioner [3, 1] [0, 4] [0, 4] = some t ∧
      t._rectangle_partition 0 = [3, 1] ∧
      t._rectangle_partition 1 = [0, 4] ∧
      t._rectangle_partition 2 = [0, 4] ∧
      t._rectangle_partition_dev.extent0 = maxRanks singleRankPartitioner._ranks_per_dim ∧
      0 < (t._rectangle_partition 0).length ∧
      t._rectangle_partition_dev.data (0 : Nat) 0 = (t._rectangle_partition 0).getD 0 0 :=
  ⟨by decide,
    initialize_rec_partition_installs singleRankPartitioner [3, 1] [0, 4] [0, 4] 0 0
      (by decide) (by decide) (by decide) (by decide) (by decide)⟩

/-- C8 fails as stated. With one rank per axis (so every sequence must have two entries)
and the valid partition `[0, 4]` stored on every axis: a call whose axis-0 sequence is the
decreasing `[3, 1]`, and a call whose axis-0 sequence is the three-entry `[0, 2, 4]`, both
go through and replace the stored sequence and the kernel cell `(0, 0)`. -/
theorem initialize_rec_partition_no_validation :
    singleRankPartitioner._ranks_per_dim 0 = 1 ∧
    singleRankPartitioner._rectangle_partition 0 = [0, 4] ∧
    singleRankPartitioner._rectangle_partition_dev.data 0 0 = 0 ∧
    ¬ List.Pairwise (fun a b : Int => a ≤ b) [3, 1] ∧
    (initialize_rec_partition singleRankPartitioner [3, 1] [0, 4] [0, 4]).map
        (fun t => (t._rectangle_partition 0, t._rectangle_partition_dev.data 0 0)) =
      some ([3, 1], 3) ∧
    ([0, 2, 4] : List Int).length ≠ singleRankPartitioner._ranks_per_dim 0 + 1 ∧
    (initialize_rec_partition singleRankPartitioner [0, 2, 4] [0, 4] [0, 4]).map
        (fun t => t._rectangle_partition 0) = some [0, 2, 4] := by
  decide

/-! ## `computeLocalWorkLoad` -/

/-- The conversion to `int` of a non-negative value below `2^31` is its floor. -/
theorem static_cast_int_of_nonneg (q : Rat) (h : 0 ≤ q) (h1 : q < 2147483648) :
    static_cast_int q = ⌊q⌋ := by
  unfold static_cast_int
  have hf : Int.tdiv q.num q.den = ⌊q⌋ := by
    rw [Rat.floor_def, Int.tdiv_eq_ediv (Rat.num_nonneg.2 h) (Int.ofNat_nonneg _)]
  have h0 : 0 ≤ ⌊q⌋ := Int.floor_nonneg.2 h
  have h2 : ⌊q⌋ < 2147483648 := Int.floor_lt.2 (by exact_mod_cast h1)
  rw [hf]
  exact castToInt_of_range _ (by simp only [INT_MIN]; omega) (by simp only [INT_MAX]; omega)

/-- The conversion to `int` of a value in `(-1, 0)` is `0`. -/
theorem static_cast_int_of_neg (q : Rat) (h0 : q < 0) (h1 : -1 < q) : static_cast_int q = 0 := by
  unfold static_cast_int
  have hn : q.num < 0 := Rat.num_neg.2 h0
  have hd : (0 : ℚ) < (q.den : ℚ) := by exact_mod_cast q.den_pos
  have h2 : -(q.den : ℚ) < (q.num : ℚ) := by
    have h3 : (-1 : ℚ) < (q.num : ℚ) / (q.den : ℚ) := by rwa [Rat.num_div_den]
    rw [lt_div_iff₀ hd] at h3
    linarith
  have h4 : -(q.den : Int) < q.num := by exact_mod_cast h2
  have h5 : (-q.num).tdiv (q.den : Int) = 0 :=
    Int.tdiv_eq_zero_of_lt (by omega) (by omega)
  rw [Int.neg_tdiv] at h5
  have h6 : q.num.tdiv (q.den : Int) = 0 := by omega
  rw [h6]
  rfl

/-- The tile index of a non-negative coordinate whose exact `x / dx - 1/2` is below
`2^31`: `x / dx - 1/2` is at least `-1/2`, so its truncation is its floor, or `0` where
the floor is `-1`. -/
theorem tileIndex_of_coordinate (cell_bits_per_tile_dim : Nat) (x dx : Rat) (hx : 0 ≤ x)
    (hdx : 0 < dx) (hr : x / dx - 1 / 2 < 2147483648) :
    tileIndex cell_bits_per_tile_dim x dx =
      (max 0 ⌊x / dx - 1 / 2⌋) >>> cell_bits_per_tile_dim := by
  unfold tileIndex
  have hq : 0 ≤ x / dx := div_nonneg hx hdx.le
  by_cases h : 0 ≤ x / dx - 1 / 2
  · rw [static_cast_int_of_nonneg _ h hr, max_eq_right (Int.floor_nonneg.2 h)]
  · have h0 : x / dx - 1 / 2 < 0 := lt_of_not_le h
    rw [static_cast_int_of_neg _ h0 (by linarith), max_eq_left]
    exact le_of_lt (Int.floor_lt.2 (by exact_mod_cast h0))

/-- A value with at most 24 significant bits is non-negative and below `2^24`. -/
theorem Float24_range (q : Rat) (h : Float24 q) : 0 ≤ q ∧ q < 2 ^ 24 := by
  obtain ⟨n, k, hn, _, rfl⟩ := h
  have h1 : (n : Rat) < 2 ^ 24 := by exact_mod_cast hn
  have h2 : (n : Rat) / 2 ^ k ≤ (n : Rat) :=
    div_le_self (Nat.cast_nonneg n) (one_le_pow₀ (by norm_num))
  exact ⟨by positivity, lt_of_le_of_lt h2 h1⟩

/-- C13, amended. For a coordinate `x` and a cell size `dx > 0` that are non-negative
values of at most 24 significant bits, with a quotient `x / dx` of that kind (so that the
operands, the quotient, the difference `x / dx - 0.5` and its integer part are exact in
every floating-point type of the source), the per-axis tile index that
`computeLocalWorkLoad` increments is `max( 0, floor( x / dx - 1/2 ) ) >> B`: the code
subtracts `0.5` before it truncates. -/
theorem tileIndex_eq_floor_half (cell_bits_per_tile_dim : Nat) (x dx : Rat)
    (hx : Float24 x) (_hdx : Float24 dx) (hpos : 0 < dx) (hq : Float24 (x / dx)) :
    tileIndex cell_bits_per_tile_dim x dx =
      (max 0 ⌊x / dx - 1 / 2⌋) >>> cell_bits_per_tile_dim := by
  have h1 := (Float24_range (x / dx) hq).2
  have h2 : ((2 : Rat) ^ 24) < 2147483648 := by norm_num
  exact tileIndex_of_coordinate cell_bits_per_tile_dim x dx (Float24_range x hx).1 hpos
    (by linarith)

/-- Witness for the amended C13: `x = 9/2`, `dx = 1`, `B = 2` gives the tile index 1. -/
theorem tileIndex_eq_floor_half_witness :
    (Float24 (9 / 2) ∧ Float24 1 ∧ (0 : Rat) < 1 ∧ Float24 ((9 / 2 : Rat) / 1)) ∧
      tileIndex 2 (9 / 2) 1 = (max 0 ⌊(9 / 2 : Rat) / 1 - 1 / 2⌋) >>> (2 : Nat) :=
  ⟨⟨⟨9, 1, by norm_num, by norm_num, by norm_num⟩, ⟨1, 0, by norm_num, by norm_num, by norm_num⟩,
      by norm_num, ⟨9, 1, by norm_num, by norm_num, by norm_num⟩⟩,
    tileIndex_eq_floor_half 2 (9 / 2) 1 ⟨9, 1, by norm_num, by norm_num, by norm_num⟩
      ⟨1, 0, by norm_num, by norm_num, by norm_num⟩ (by norm_num)
      ⟨9, 1, by norm_num, by norm_num, by norm_num⟩⟩

/-- C13 fails as stated. For `x = 1`, `dx = 1`, `B = 0` the code increments tile 0 while
`floor( x / dx ) >> B` is 1; for `x = 4`, `dx = 1`, `B = 2` the code increments tile 0
while `floor( x / dx ) >> B` is 1. -/
theorem tileIndex_not_floor :
    tileIndex 0 1 1 = 0 ∧ ⌊(1 : Rat) / 1⌋ >>> (0 : Nat) = 1 ∧
    tileIndex 2 4 1 = 0 ∧ ⌊(4 : Rat) / 1⌋ >>> (2 : Nat) = 1 := by
  have f1 : ⌊(1 : Rat) / 1 - 1 / 2⌋ = 0 := by
    rw [Int.floor_eq_iff]; norm_num
  have f4 : ⌊(4 : Rat) / 1 - 1 / 2⌋ = 3 := by
    rw [Int.floor_eq_iff]; norm_num
  have g1 : ⌊(1 : Rat) / 1⌋ = 1 := by
    rw [Int.floor_eq_iff]; norm_num
  have g4 : ⌊(4 : Rat) / 1⌋ = 4 := by
    rw [Int.floor_eq_iff]; norm_num
  refine ⟨?_, ?_, ?_, ?_⟩
  · rw [tileIndex_of_coordinate 0 1 1 (by norm_num) (by norm_num) (by norm_num), f1]
    decide
  · rw [g1]
    decide
  · rw [tileIndex_of_coordinate 2 4 1 (by norm_num) (by norm_num) (by norm_num), f4]
    decide
  · rw [g4]
    decide

/-- `atomic_increment` keeps the extents of the grid. -/
theorem atomic_increment_inRange (grid : View3) (ti tj tz i j k : Int) :
    (atomic_increment grid ti tj tz).inRange i j k ↔ grid.inRange i j k :=
  Iff.rfl

/-- `computeLocalWorkLoad` keeps the extents of the grid. -/
theorem computeLocalWorkLoad_extents (cell_bits_per_tile_dim : Nat) (grid : View3)
    (view : Nat → Nat → Rat) (dx : Rat) (particle_num : Nat) :
    (computeLocalWorkLoad cell_bits_per_tile_dim grid view particle_num dx).extent0 =
        grid.extent0 ∧
      (computeLocalWorkLoad cell_bits_per_tile_dim grid view particle_num dx).extent1 =
        grid.extent1 ∧
      (computeLocalWorkLoad cell_bits_per_tile_dim grid view particle_num dx).extent2 =
        grid.extent2 := by
  induction particle_num with
  | zero => exact ⟨rfl, rfl, rfl⟩
  | succ n ih => exact ih

/-- One `atomic_increment` of an in-range tile raises the sum of the grid by one. -/
theorem gridSum_atomic_increment (grid : View3) (ti tj tz : Int)
    (h : grid.inRange ti tj tz) : gridSum (atomic_increment grid ti tj tz) = gridSum grid + 1 := by
  obtain ⟨h0, h1, h2, h3, h4, h5⟩ := h
  obtain ⟨a, rfl⟩ := Int.eq_ofNat_of_zero_le h0
  obtain ⟨b, rfl⟩ := Int.eq_ofNat_of_zero_le h2
  obtain ⟨c, rfl⟩ := Int.eq_ofNat_of_zero_le h4
  have ha : a < grid.extent0 := by exact_mod_cast h1
  have hb : b < grid.extent1 := by exact_mod_cast h3
  have hc : c < grid.extent2 := by exact_mod_cast h5
  have e : ∀ i j k : Nat,
      (atomic_increment grid a b c).data i j k =
        grid.data i j k + if i = a then (if j = b then (if k = c then 1 else 0) else 0) else 0 := by
    intro i j k
    simp only [atomic_increment, Nat.cast_inj]
    split_ifs <;> simp_all
  show ∑ i in Finset.range grid.extent0, ∑ j in Finset.range grid.extent1,
      ∑ k in Finset.range grid.extent2, (atomic_increment grid a b c).data i j k = _
  simp only [e, Finset.sum_add_distrib, gridSum]
  congr 1
  have hk : ∀ j : Nat, (∑ k in Finset.range grid.extent2,
      if j = b then (if k = c then (1 : Int) else 0) else 0) = if j = b then 1 else 0 := by
    intro j
    split_ifs
    · simp [Finset.sum_ite_eq', hc]
    · simp
  have hj : ∀ i : Nat, (∑ j in Finset.range grid.extent1, ∑ k in Finset.range grid.extent2,
      if i = a then (if j = b then (if k = c then (1 : Int) else 0) else 0) else 0) =
        if i = a then 1 else 0 := by
    intro i
    split_ifs
    · simp only [hk]
      simp [Finset.sum_ite_eq', hb]
    · simp
  simp only [hj]
  simp [Finset.sum_ite_eq', ha]

/-- Particles whose tile indices are in range raise the sum of the grid by their
number. -/
theorem gridSum_computeLocalWorkLoad (cell_bits_per_tile_dim : Nat) (grid : View3)
    (view : Nat → Nat → Rat) (dx : Rat) :
    ∀ particle_num : Nat,
      (∀ i, i < particle_num →
        grid.inRange (tileIndex cell_bits_per_tile_dim (view i 0) dx)
          (tileIndex cell_bits_per_tile_dim (view i 1) dx)
          (tileIndex cell_bits_per_tile_dim (view i 2) dx)) →
      gridSum (computeLocalWorkLoad cell_bits_per_tile_dim grid view particle_num dx) =
        gridSum grid + particle_num := by
  intro n
  induction n with
  | zero => intro _; simp [computeLocalWorkLoad]
  | succ n ih =>
    intro h
    obtain ⟨e0, e1, e2⟩ := computeLocalWorkLoad_extents cell_bits_per_tile_dim grid view dx n
    have hin := h n (Nat.lt_succ_self n)
    simp only [computeLocalWorkLoad]
    rw [gridSum_atomic_increment, ih fun i hi => h i (Nat.lt_succ_of_lt hi)]
    · push_cast; ring
    · unfold View3.inRange at hin ⊢
      rw [e0, e1, e2]
      exact hin

/-- The sum of a grid whose in-range cells are all `0` is `0`. -/
theorem gridSum_zero (grid : View3) (hz : ∀ i j k : Int, grid.inRange i j k → grid.data i j k = 0) :
    gridSum grid = 0 := by
  unfold gridSum
  apply Finset.sum_eq_zero
  intro i hi
  apply Finset.sum_eq_zero
  intro j hj
  apply Finset.sum_eq_zero
  intro k hk
  exact hz i j k (inRange_natCast grid i j k (Finset.mem_range.1 hi) (Finset.mem_range.1 hj)
    (Finset.mem_range.1 hk))

/-- C12. Particle-mode accumulation: for `particle_num` particles whose tile indices are
in range and a workload grid whose cells are all zero beforehand, the entries of the grid
after `computeLocalWorkLoad` add up to `particle_num`. -/
theorem computeLocalWorkLoad_total (cell_bits_per_tile_dim : Nat) (grid : View3)
    (view : Nat → Nat → Rat) (particle_num : Nat) (dx : Rat)
    (hz : ∀ i j k : Int, grid.inRange i j k → grid.data i j k = 0)
    (hin : ∀ i, i < particle_num →
      grid.inRange (tileIndex cell_bits_per_tile_dim (view i 0) dx)
        (tileIndex cell_bits_per_tile_dim (view i 1) dx)
        (tileIndex cell_bits_per_tile_dim (view i 2) dx)) :
    gridSum (computeLocalWorkLoad cell_bits_per_tile_dim grid view particle_num dx) =
      particle_num := by
  rw [gridSum_computeLocalWorkLoad cell_bits_per_tile_dim grid view dx particle_num hin,
    gridSum_zero grid hz, zero_add]

/-- The tile of the stacked particles: coordinate `3/2` with `dx = 1`, `B = 0` lies in
tile 1. -/
theorem tileIndex_stacked (i d : Nat) : tileIndex 0 (stackedParticles i d) 1 = 1 := by
  have f : ⌊(3 / 2 : Rat) / 1 - 1 / 2⌋ = 1 := by
    rw [Int.floor_eq_iff]; norm_num
  unfold stackedParticles
  rw [tileIndex_of_coordinate 0 (3 / 2) 1 (by norm_num) (by norm_num) (by norm_num), f]
  decide

/-- Witness for C12: three particles that all land in tile `(1, 1, 1)` of an empty
2×2×2 grid. -/
theorem computeLocalWorkLoad_total_witness :
    ((∀ i j k : Int, (View3.const 2 2 2 0).inRange i j k →
        (View3.const 2 2 2 0).data i j k = 0) ∧
      (∀ i, i < 3 →
        (View3.const 2 2 2 0).inRange (tileIndex 0 (stackedParticles i 0) 1)
          (tileIndex 0 (stackedParticles i 1) 1) (tileIndex 0 (stackedParticles i 2) 1))) ∧
    gridSum (computeLocalWorkLoad 0 (View3.const 2 2 2 0) stackedParticles 3 1) =
      ((3 : Nat) : Int) :=
  ⟨⟨fun _ _ _ _ => rfl, fun i _ => by simp only [tileIndex_stacked]; decide⟩,
    computeLocalWorkLoad_total 0 (View3.const 2 2 2 0) stackedParticles 3 1
      (fun _ _ _ _ => rfl) (fun i _ => by simp only [tileIndex_stacked]; decide)⟩

/-! ## The boundary search: stopping rule, order of the candidates, termination -/

/-- The stopping rule of a boundary search started at `point_i` with `last_diff`: every
candidate before the final one has a difference strictly below the preceding difference
(`last_diff` for the first candidate), and the final one has not. -/
theorem boundarySearch_rule (s : SparseDimPartitioner) (di : Nat) (sum_ave : Int) :
    ∀ (fuel : Nat) (point_i last_diff p : Int),
      boundarySearch s di sum_ave fuel point_i last_diff = some p →
        point_i ≤ p ∧
        (∀ c : Int, point_i ≤ c → c < p →
          |sum_current_workload s di c - sum_ave| <
            if c = point_i then last_diff
            else |sum_current_workload s di (c - 1) - sum_ave|) ∧
        (if p = point_i then last_diff else |sum_current_workload s di (p - 1) - sum_ave|) ≤
          |sum_current_workload s di p - sum_ave| := by
  intro fuel
  induction fuel with
  | zero => intro _ _ _ h; simp [boundarySearch] at h
  | succ n ih =>
    intro point_i last_diff p h
    simp only [boundarySearch] at h
    split at h
    · rename_i hlt
      obtain ⟨h1, h2, h3⟩ := ih _ _ _ h
      refine ⟨by omega, ?_, ?_⟩
      · intro c hc hcp
        by_cases hc0 : c = point_i
        · rw [if_pos hc0, hc0]
          exact hlt
        · rw [if_neg hc0]
          have := h2 c (by omega) hcp
          by_cases hc1 : c = point_i + 1
          · rw [if_pos hc1] at this
            rw [hc1, add_sub_cancel_right]
            rw [hc1] at this
            exact this
          · rw [if_neg hc1] at this
            exact this
      · rw [if_neg (by omega)]
        by_cases hp1 : p = point_i + 1
        · rw [if_pos hp1] at h3
          rw [hp1, add_sub_cancel_right]
          rw [hp1] at h3
          exact h3
        · rw [if_neg hp1] at h3
          exact h3
    · rename_i hlt
      simp only [Option.some.injEq] at h
      subst h
      refine ⟨le_rfl, fun c h1 h2 => by omega, ?_⟩
      rw [if_pos rfl]
      exact not_lt.1 hlt

/-- C16. Stopping rule and tie-break of the boundary search, started at `point_i` with
`last_diff = INT_MAX`: the search ends at a candidate `p`; every candidate `c` before
`p` has a difference strictly below the difference of the preceding candidate (below
`INT_MAX` for the first one); the difference at `p` is greater than or equal to the
preceding one (ties included); and the position committed is `p - 1`. -/
theorem boundarySearch_stopping_rule (s : SparseDimPartitioner) (di : Nat) (sum_ave : Int)
    (current_rank : Nat) (point_i : Int) :
    ∃ p, boundarySearch s di sum_ave searchFuel point_i INT_MAX = some p ∧
      point_i ≤ p ∧
      (∀ c : Int, point_i ≤ c → c < p →
        |sum_current_workload s di c - sum_ave| <
          if c = point_i then INT_MAX else |sum_current_workload s di (c - 1) - sum_ave|) ∧
      (if p = point_i then INT_MAX else |sum_current_workload s di (p - 1) - sum_ave|) ≤
        |sum_current_workload s di p - sum_ave| ∧
      searchBoundaries di sum_ave 1 current_rank point_i s =
        some ({ s with _rectangle_partition_dev :=
                  s._rectangle_partition_dev.set (current_rank : Int) di (p - 1) }, p) := by
  obtain ⟨p, hp⟩ := boundarySearch_total s di sum_ave point_i
  obtain ⟨h1, h2, h3⟩ := boundarySearch_rule s di sum_ave _ _ _ _ hp
  exact ⟨p, hp, h1, h2, h3, by simp only [searchBoundaries, hp]⟩

/-- Every candidate that a boundary search examines lies between its starting position
and the position at which it breaks. -/
theorem examinedCandidates_bounds (s : SparseDimPartitioner) (di : Nat) (sum_ave : Int) :
    ∀ (fuel : Nat) (point_i last_diff c : Int),
      c ∈ examinedCandidates s di sum_ave fuel point_i last_diff →
        point_i ≤ c ∧
          ∀ p, boundarySearch s di sum_ave fuel point_i last_diff = some p → c ≤ p := by
  intro fuel
  induction fuel with
  | zero => intro _ _ _ h; simp [examinedCandidates] at h
  | succ n ih =>
    intro point_i last_diff c h
    simp only [examinedCandidates, boundarySearch, List.mem_cons] at h ⊢
    rcases h with h | h
    · subst h
      refine ⟨le_rfl, fun p hp => ?_⟩
      exact boundarySearch_ge s di sum_ave (n + 1) c last_diff p (by simpa [boundarySearch] using hp)
    · split at h
      · rename_i hlt
        obtain ⟨h1, h2⟩ := ih _ _ _ h
        refine ⟨by omega, fun p hp => ?_⟩
        rw [if_pos hlt] at hp
        exact h2 p hp
      · simp at h

/-- The candidates that a boundary search examines are strictly increasing. -/
theorem examinedCandidates_increasing (s : SparseDimPartitioner) (di : Nat) (sum_ave : Int) :
    ∀ (fuel : Nat) (point_i last_diff : Int),
      List.Pairwise (fun a b : Int => a < b)
        (examinedCandidates s di sum_ave fuel point_i last_diff) := by
  intro fuel
  induction fuel with
  | zero => intro _ _; simp [examinedCandidates]
  | succ n ih =>
    intro point_i last_diff
    simp only [examinedCandidates, List.pairwise_cons]
    split
    · refine ⟨fun c hc => ?_, ih _ _⟩
      have := (examinedCandidates_bounds s di sum_ave _ _ _ c hc).1
      omega
    · simp

/-- Every candidate examined during a sweep is at or above the position the sweep
started from. -/
theorem sweepCandidates_ge (di : Nat) (sum_ave : Int) :
    ∀ (n current_rank : Nat) (point_i : Int) (s : SparseDimPartitioner) (c : Int),
      c ∈ sweepCandidates di sum_ave n current_rank point_i s → point_i ≤ c := by
  intro n
  induction n with
  | zero => intro _ _ _ c h; simp [sweepCandidates] at h
  | succ n ih =>
    intro current_rank point_i s c h
    obtain ⟨p, hp⟩ := boundarySearch_total s di sum_ave point_i
    simp only [sweepCandidates, hp, List.mem_append] at h
    rcases h with h | h
    · exact (examinedCandidates_bounds s di sum_ave _ _ _ c h).1
    · have h1 := ih _ _ _ _ h
      have h2 := boundarySearch_ge s di sum_ave _ _ _ _ hp
      omega

/-- The candidates examined during a sweep, in the order in which they are examined,
never move backwards. -/
theorem sweepCandidates_sorted (di : Nat) (sum_ave : Int) :
    ∀ (n current_rank : Nat) (point_i : Int) (s : SparseDimPartitioner),
      List.Pairwise (fun a b : Int => a ≤ b)
        (sweepCandidates di sum_ave n current_rank point_i s) := by
  intro n
  induction n with
  | zero => intro _ _ _; simp [sweepCandidates]
  | succ n ih =>
    intro current_rank point_i s
    obtain ⟨p, hp⟩ := boundarySearch_total s di sum_ave point_i
    simp only [sweepCandidates, hp, List.pairwise_append]
    refine ⟨(examinedCandidates_increasing s di sum_ave _ _ _).imp fun h => le_of_lt h,
      ih _ _ _, fun a ha b hb => ?_⟩
    have h1 := (examinedCandidates_bounds s di sum_ave _ _ _ a ha).2 p hp
    have h2 := sweepCandidates_ge di sum_ave _ _ _ _ b hb
    omega

/-- The positions committed during a sweep: the rows below `current_rank` keep their
content, the rows of the sweep hold positions between `point_i - 1` and the final
`point_i - 1`, and these positions are non-decreasing in the row. -/
theorem searchBoundaries_committed (di : Nat) (sum_ave : Int) :
    ∀ (n current_rank : Nat) (point_i : Int) (s : SparseDimPartitioner)
      (r : SparseDimPartitioner × Int),
      searchBoundaries di sum_ave n current_rank point_i s = some r →
        point_i ≤ r.2 ∧
        (∀ a : Nat, a < current_rank →
          r.1._rectangle_partition_dev.data a di = s._rectangle_partition_dev.data a di) ∧
        (∀ a : Nat, current_rank ≤ a → a < current_rank + n →
          point_i - 1 ≤ r.1._rectangle_partition_dev.data a di ∧
            r.1._rectangle_partition_dev.data a di ≤ r.2 - 1) ∧
        (∀ a b : Nat, current_rank ≤ a → a ≤ b → b < current_rank + n →
          r.1._rectangle_partition_dev.data a di ≤ r.1._rectangle_partition_dev.data b di) := by
  intro n
  induction n with
  | zero =>
    intro current_rank point_i s r h
    simp only [searchBoundaries, Option.some.injEq] at h
    subst h
    exact ⟨le_rfl, fun _ _ => rfl, fun a h1 h2 => by omega, fun a b h1 h2 h3 => by omega⟩
  | succ n ih =>
    intro current_rank point_i s r h
    obtain ⟨p, hp⟩ := boundarySearch_total s di sum_ave point_i
    have hge := boundarySearch_ge s di sum_ave _ _ _ _ hp
    simp only [searchBoundaries, hp] at h
    obtain ⟨h1, h2, h3, h4⟩ := ih _ _ _ _ h
    have hcur : r.1._rectangle_partition_dev.data current_rank di = p - 1 := by
      rw [h2 current_rank (Nat.lt_succ_self _)]
      simp [View2.set]
    refine ⟨by omega, ?_, ?_, ?_⟩
    · intro a ha
      rw [h2 a (by omega)]
      have hne : ¬ ((a : Int) = (current_rank : Int)) := by omega
      simp [View2.set, hne]
    · intro a ha1 ha2
      by_cases hac : a = current_rank
      · subst hac
        rw [hcur]
        omega
      · have := h3 a (by omega) (by omega)
        omega
    · intro a b ha hab hb
      by_cases hac : a = current_rank
      · subst hac
        by_cases hbc : b = a
        · subst hbc
          exact le_rfl
        · rw [hcur]
          exact (h3 b (by omega) (by omega)).1
      · exact h4 a b (by omega) hab (by omega)

/-- C11. Within the sweep of one axis `di` (which always completes): the positions
committed for the internal boundaries `a ≤ b` satisfy `committed a ≤ committed b`, no
committed position is below `0`, and the candidates examined during the whole sweep, in
the order in which they are examined, never move backwards. -/
theorem optimizeAxis_never_regresses (s : SparseDimPartitioner) (di a b : Nat)
    (hab : a ≤ b) (hb : b + 1 < s._ranks_per_dim di) :
    ∃ s1, optimizeAxis s di = some s1 ∧
      0 ≤ s1._rectangle_partition_dev.data a di ∧
      s1._rectangle_partition_dev.data a di ≤ s1._rectangle_partition_dev.data b di ∧
      List.Pairwise (fun x y : Int => x ≤ y)
        (sweepCandidates di (sum_ave_workload s di) (s._ranks_per_dim di - 1) 0 1 s) := by
  obtain ⟨r, hr, _⟩ :=
    searchBoundaries_frame di (sum_ave_workload s di) (s._ranks_per_dim di - 1) 0 1 s
  obtain ⟨_, _, h3, h4⟩ := searchBoundaries_committed di _ _ _ _ _ r hr
  have hz : ¬ divisionByZero s di := not_divisionByZero s di (by omega)
  refine ⟨r.1, by simp [optimizeAxis, hr, hz], ?_, ?_, sweepCandidates_sorted di _ _ _ _ _⟩
  · have := (h3 a (Nat.zero_le _) (by omega)).1
    omega
  · exact h4 a b (Nat.zero_le _) hab (by omega)

/-- Witness for C11: the first two internal boundaries of axis 1 (three ranks) of the
collapsed partitioner. -/
theorem optimizeAxis_never_regresses_witness :
    ((0 : Nat) ≤ 1 ∧ 1 + 1 < collapsedPartitioner._ranks_per_dim 1) ∧
    ∃ s1, optimizeAxis collapsedPartitioner 1 = some s1 ∧
      0 ≤ s1._rectangle_partition_dev.data (0 : Nat) 1 ∧
      s1._rectangle_partition_dev.data (0 : Nat) 1 ≤
        s1._rectangle_partition_dev.data (1 : Nat) 1 ∧
      List.Pairwise (fun x y : Int => x ≤ y)
        (sweepCandidates 1 (sum_ave_workload collapsedPartitioner 1)
          (collapsedPartitioner._ranks_per_dim 1 - 1) 0 1 collapsedPartitioner) :=
  ⟨by decide, optimizeAxis_never_regresses collapsedPartitioner 1 0 1 (by decide) (by decide)⟩

/-! ## Zero workload -/

/-- A reduction whose `n` terms are all `0` is `0`. -/
theorem parallel_reduce_zero_below (term : Nat → Int) :
    ∀ n : Nat, (∀ m, m < n → term m = 0) → parallel_reduce term n = 0 := by
  intro n
  induction n with
  | zero => intro _; rfl
  | succ n ih =>
    intro h
    simp only [parallel_reduce]
    rw [ih fun m hm => h m (by omega), h n (by omega)]
    rfl

/-- Over a table whose cells are all `0`, a candidate whose round looks the table up
inside its extents has the total `0`. -/
theorem sum_current_workload_zeroCells (s : SparseDimPartitioner) (hz : ZeroCells s)
    (di : Nat) (point_i : Int) (hin : roundInBounds s di point_i) :
    sum_current_workload s di point_i = 0 := by
  unfold sum_current_workload
  apply parallel_reduce_zero_below
  intro m hm
  have hl := (hin m (List.mem_range.2 hm)).2
  simp only [tableReads, List.mem_cons, List.mem_singleton, List.not_mem_nil, or_false,
    forall_eq_or_imp, forall_eq] at hl
  obtain ⟨a1, a2, a3, a4, a5, a6, a7, a8⟩ := hl
  simp only [compute_sub_workload6, inclusionExclusion]
  rw [hz _ _ _ a1, hz _ _ _ a2, hz _ _ _ a3, hz _ _ _ a4, hz _ _ _ a5, hz _ _ _ a6,
    hz _ _ _ a7, hz _ _ _ a8]
  simp

/-- With at least two rounds of fuel, a boundary search towards the target `0` whose
first candidate has the total `0` examines that candidate and the next one, and breaks at
the next one. -/
theorem boundarySearch_zero_fuel (s : SparseDimPartitioner) (di : Nat) (point_i : Int)
    (h : sum_current_workload s di point_i = 0) (n : Nat) :
    boundarySearch s di 0 (n + 1 + 1) point_i INT_MAX = some (point_i + 1) ∧
      examinedCandidates s di 0 (n + 1 + 1) point_i INT_MAX = [point_i, point_i + 1] := by
  have h0 : (0 : Int) < INT_MAX := by decide
  constructor
  · simp only [boundarySearch, h, sub_zero, abs_zero, h0, if_true]
    rw [if_neg (by simp)]
  · simp only [examinedCandidates, h, sub_zero, abs_zero, h0, if_true]
    rw [if_neg (by simp)]

/-- A boundary search of `optimizePartition` towards the target `0` whose first candidate
has the total `0` examines that candidate and the next one, and breaks at the next
one. -/
theorem boundarySearch_zero_round (s : SparseDimPartitioner) (di : Nat) (point_i : Int)
    (h : sum_current_workload s di point_i = 0) :
    boundarySearch s di 0 searchFuel point_i INT_MAX = some (point_i + 1) ∧
      examinedCandidates s di 0 searchFuel point_i INT_MAX = [point_i, point_i + 1] :=
  boundarySearch_zero_fuel s di point_i h 2147483647

/-- When the two other axes have one rank each and the upper bound of that rank on axis
`(di + 1) % 3` is `0`, the one pencil of a sweep on axis `di` is empty and every candidate
total is `0`, whatever the table holds and whatever a lookup returns. -/
theorem sum_current_workload_empty_pencil (s : SparseDimPartitioner) (di : Nat) (hdi : di < 3)
    (hj : s._ranks_per_dim ((di + 1) % 3) = 1) (hk : s._ranks_per_dim ((di + 2) % 3) = 1)
    (h0 : s._rectangle_partition_dev.data 0 ((di + 1) % 3) = 0) (point_i : Int) :
    sum_current_workload s di point_i = 0 := by
  have h : compute_sub_workload6 s di point_i ((di + 1) % 3) 0 ((di + 2) % 3) 0 = 0 := by
    apply inclusionExclusion_eq_zero _ _ _ ((di + 1) % 3) (Nat.mod_lt _ (by decide))
    interval_cases di <;> simp [startOf6, endOf6, setAt] <;> exact h0.symm
  simp only [sum_current_workload, hj, hk, Nat.mul_one, parallel_reduce, Nat.zero_div,
    Nat.zero_mod, zero_add, Nat.cast_zero, h, Int.zero_tdiv]

/-- With an empty pencil as above, the sweep over `n` internal boundaries started at
`point_i` commits `point_i`, `point_i + 1`, ... into the rows from `current_rank` on,
without regard to the tile extent of the axis. -/
theorem searchBoundaries_empty_pencil (di : Nat) (hdi : di < 3) :
    ∀ (n current_rank : Nat) (point_i : Int) (s : SparseDimPartitioner),
      s._ranks_per_dim ((di + 1) % 3) = 1 → s._ranks_per_dim ((di + 2) % 3) = 1 →
      s._rectangle_partition_dev.data 0 ((di + 1) % 3) = 0 →
      ∃ r, searchBoundaries di 0 n current_rank point_i s = some r ∧
        ∀ a : Nat, current_rank ≤ a → a < current_rank + n →
          r.1._rectangle_partition_dev.data a di = point_i + ((a - current_rank : Nat) : Int) := by
  intro n
  induction n with
  | zero =>
    intro current_rank point_i s _ _ _
    exact ⟨(s, point_i), rfl, fun a h1 h2 => by omega⟩
  | succ n ih =>
    intro current_rank point_i s hj hk h0
    have hp := (boundarySearch_zero_round s di point_i
      (sum_current_workload_empty_pencil s di hdi hj hk h0 point_i)).1
    have hne : (di + 1) % 3 ≠ di := by omega
    obtain ⟨r, hr, hcells⟩ := ih (current_rank + 1) (point_i + 1)
      { s with _rectangle_partition_dev :=
          s._rectangle_partition_dev.set (current_rank : Int) di (point_i + 1 - 1) } hj hk
      (by simp [View2.set, hne, h0])
    refine ⟨r, by simp only [searchBoundaries, hp]; exact hr, ?_⟩
    intro a ha1 ha2
    by_cases hac : a = current_rank
    · subst hac
      obtain ⟨_, h2, _⟩ := searchBoundaries_committed di 0 _ _ _ _ r hr
      rw [h2 a (Nat.lt_succ_self _)]
      simp [View2.set]
    · rw [hcells a (by omega) (by omega)]
      have : a - current_rank = (a - (current_rank + 1)) + 1 := by omega
      rw [this]
      push_cast
      ring

/-- With an empty pencil as above, the sweep of an axis with at least one rank fills the
row `c` of every internal boundary with `c + 1`: with more than `extent + 1` ranks on the
axis, cuts pass the tile extent. -/
theorem optimizeAxis_empty_pencil (s : SparseDimPartitioner) (di : Nat) (hdi : di < 3)
    (hi : 1 ≤ s._ranks_per_dim di)
    (hj : s._ranks_per_dim ((di + 1) % 3) = 1) (hk : s._ranks_per_dim ((di + 2) % 3) = 1)
    (h0 : s._rectangle_partition_dev.data 0 ((di + 1) % 3) = 0) :
    ∃ s1, optimizeAxis s di = some s1 ∧
      ∀ c : Nat, c + 1 < s._ranks_per_dim di →
        s1._rectangle_partition_dev.data c di = (c : Int) + 1 := by
  obtain ⟨r, hr, hcells⟩ :=
    searchBoundaries_empty_pencil di hdi (s._ranks_per_dim di - 1) 0 1 s hj hk h0
  have hz : ¬ divisionByZero s di := not_divisionByZero s di hi
  refine ⟨r.1, by simp [optimizeAxis, sum_ave_workload_eq_zero, hr, hz], ?_⟩
  intro c hc
  rw [hcells c (Nat.zero_le _) (by omega)]
  simp
  ring

/-- Over a table whose cells are all `0`, a boundary search whose first round looks
the table up inside its extents stops at the candidate after its first one and commits
the first one, whatever the round of the next candidate reads. -/
theorem boundarySearch_zeroCells (s : SparseDimPartitioner) (hz : ZeroCells s) (di : Nat)
    (point_i : Int) (hin : roundInBounds s di point_i) :
    boundarySearch s di (sum_ave_workload s di) searchFuel point_i INT_MAX =
        some (point_i + 1) ∧
      examinedCandidates s di (sum_ave_workload s di) searchFuel point_i INT_MAX =
        [point_i, point_i + 1] := by
  rw [sum_ave_workload_eq_zero]
  exact boundarySearch_zero_round s di point_i
    (sum_current_workload_zeroCells s hz di point_i hin)

/-- C17 fails on the code. Three ranks per axis on a 4×4×4 grid whose 64 table cells
are all `0`, started from the valid partition `[0, 4, 4, 4]` on every axis: the target of
axis 0 is `0`, but the first round of the first search on axis 0 looks the table up at
the boundary value `4` itself, outside the extents (pencil `(1, 1)` reads the index
`(4, 4, 4)`), so its total is what lies there.  With `0` outside the table the search
examines the candidates `1, 2` and the run commits the cuts `1, 2`; with `100` outside it
the totals of the candidates `1, 2, 3` are `33, 0, -33`, the search examines `1, 2, 3`
and breaks at `3` instead of stopping at its first candidate, and the run commits the
cuts `2, 4`. -/
theorem optimizePartition_zeroCells_out_of_bounds :
    (∀ g : Int, ZeroCells (zeroCellsPartitioner g)) ∧
    RectPartitionInvariant (zeroCellsPartitioner 100) ∧
    PositiveRanks (zeroCellsPartitioner 100) ∧
    sum_ave_workload (zeroCellsPartitioner 100) 0 = 0 ∧
    ¬ roundInBounds (zeroCellsPartitioner 100) 0 1 ∧
    ((4, 4, 4) ∈ tableReads (startOf6 (zeroCellsPartitioner 100) 0 1 1 1 2 1)
        (endOf6 (zeroCellsPartitioner 100) 0 1 1 1 2 1) ∧
      ¬ (zeroCellsPartitioner 100)._workload_prefix_sum.inRange 4 4 4) ∧
    (List.range 3).map
        (fun n : Nat => sum_current_workload (zeroCellsPartitioner 100) 0 ((n : Int) + 1)) =
      [33, 0, -33] ∧
    examinedCandidates (zeroCellsPartitioner 100) 0 0 searchFuel 1 INT_MAX = [1, 2, 3] ∧
    boundarySearch (zeroCellsPartitioner 100) 0 0 searchFuel 1 INT_MAX = some 3 ∧
    (optimizePartition (zeroCellsPartitioner 100)).map
        (fun s3 => (s3._rectangle_partition_dev.data 0 0, s3._rectangle_partition_dev.data 1 0)) =
      some (2, 4) ∧
    examinedCandidates (zeroCellsPartitioner 0) 0 0 searchFuel 1 INT_MAX = [1, 2] ∧
    (optimizePartition (zeroCellsPartitioner 0)).map
        (fun s3 => (s3._rectangle_partition_dev.data 0 0, s3._rectangle_partition_dev.data 1 0)) =
      some (1, 2) := by
  refine ⟨?_, by decide⟩
  intro g i j k h
  obtain ⟨h1, h2, h3, h4, h5, h6⟩ := h
  have e0 : ((zeroCellsPartitioner g)._workload_prefix_sum.extent0 : Int) = 4 := rfl
  have e1 : ((zeroCellsPartitioner g)._workload_prefix_sum.extent1 : Int) = 4 := rfl
  have e2 : ((zeroCellsPartitioner g)._workload_prefix_sum.extent2 : Int) = 4 := rfl
  rw [e0] at h2
  rw [e1] at h4
  rw [e2] at h6
  show (if 0 ≤ i ∧ i < 4 ∧ 0 ≤ j ∧ j < 4 ∧ 0 ≤ k ∧ k < 4 then (0 : Int) else g) = 0
  rw [if_pos ⟨h1, h2, h3, h4, h5, h6⟩]

/-! ## What a run of `optimizePartition` depends on -/

/-- A boundary search does not read the stored sequences. -/
theorem boundarySearch_stored (s : SparseDimPartitioner) (part : Nat → List Int) (di : Nat)
    (sum_ave : Int) :
    ∀ (fuel : Nat) (point_i last_diff : Int),
      boundarySearch { s with _rectangle_partition := part } di sum_ave fuel point_i last_diff =
        boundarySearch s di sum_ave fuel point_i last_diff := by
  intro fuel
  induction fuel with
  | zero => intro _ _; rfl
  | succ n ih =>
    intro point_i last_diff
    simp only [boundarySearch]
    rw [ih]
    rfl

/-- A sweep neither reads nor writes the stored sequences. -/
theorem searchBoundaries_stored (part : Nat → List Int) (di : Nat) (sum_ave : Int) :
    ∀ (n current_rank : Nat) (point_i : Int) (s : SparseDimPartitioner),
      searchBoundaries di sum_ave n current_rank point_i { s with _rectangle_partition := part } =
        (searchBoundaries di sum_ave n current_rank point_i s).map
          fun r => ({ r.1 with _rectangle_partition := part }, r.2) := by
  intro n
  induction n with
  | zero => intro _ _ _; rfl
  | succ n ih =>
    intro current_rank point_i s
    simp only [searchBoundaries, boundarySearch_stored]
    cases boundarySearch s di sum_ave searchFuel point_i INT_MAX with
    | none => rfl
    | some p =>
      exact ih (current_rank + 1) p
        { s with _rectangle_partition_dev :=
            s._rectangle_partition_dev.set (current_rank : Int) di (p - 1) }

/-- One axis sweep neither reads nor writes the stored sequences. -/
theorem optimizeAxis_stored (s : SparseDimPartitioner) (part : Nat → List Int) (di : Nat) :
    optimizeAxis { s with _rectangle_partition := part } di =
      (optimizeAxis s di).map fun r => { r with _rectangle_partition := part } := by
  unfold optimizeAxis
  by_cases hz : divisionByZero s di
  · have hz1 : divisionByZero { s with _rectangle_partition := part } di := hz
    rw [if_pos hz, if_pos hz1]
    rfl
  · have hz1 : ¬ divisionByZero { s with _rectangle_partition := part } di := hz
    rw [if_neg hz, if_neg hz1]
    show (searchBoundaries di (sum_ave_workload s di) (s._ranks_per_dim di - 1) 0 1
      { s with _rectangle_partition := part }).map Prod.fst = _
    rw [searchBoundaries_stored]
    cases searchBoundaries di (sum_ave_workload s di) (s._ranks_per_dim di - 1) 0 1 s <;> rfl

/-- A run of `optimizePartition` neither reads nor writes the stored sequences. -/
theorem optimizePartition_stored (s : SparseDimPartitioner) (part : Nat → List Int) :
    optimizePartition { s with _rectangle_partition := part } =
      (optimizePartition s).map fun r => { r with _rectangle_partition := part } := by
  unfold optimizePartition
  rw [optimizeAxis_stored]
  cases optimizeAxis s 0 with
  | none => rfl
  | some s1 =>
    simp only [Option.map_some', Option.some_bind]
    rw [optimizeAxis_stored]
    cases optimizeAxis s1 1 with
    | none => rfl
    | some s2 =>
      simp only [Option.map_some', Option.some_bind]
      rw [optimizeAxis_stored]

/-- A boundary search whose first two rounds both find a smaller difference ends at least
two positions above its start. -/
theorem boundarySearch_two_rounds (s : SparseDimPartitioner) (di : Nat) (sum_ave : Int)
    (fuel : Nat) (point_i last_diff p : Int)
    (h1 : |sum_current_workload s di point_i - sum_ave| < last_diff)
    (h2 : |sum_current_workload s di (point_i + 1) - sum_ave| <
      |sum_current_workload s di point_i - sum_ave|)
    (h : boundarySearch s di sum_ave fuel point_i last_diff = some p) : point_i + 2 ≤ p := by
  cases fuel with
  | zero => simp [boundarySearch] at h
  | succ n =>
    simp only [boundarySearch, h1, if_true] at h
    have := boundarySearch_first_round s di sum_ave n _ _ p h2 h
    omega

/-- C14 fails on the code. Ranks-per-dimension (2, 3, 3) on the uniform 4×4×4 grid,
started from the valid partition `[0, 0, 4]`, `[0, 0, 0, 4]`, `[0, 0, 0, 4]`: one run of
`optimizePartition` commits the cut `1` for the internal boundary of axis 0, a second
run on the same table commits `2`.  The searches of a run read the bounds of the other
two axes from `_rectangle_partition_dev`, which the run before has overwritten with its
cuts (row `r` holding the cut `r + 1`), so the second run sums over other pencils than
the first.  On axis 0 the rounds of the candidates 1 and 2 read
inside the views in both runs; in the second run both find a smaller difference, so its
cut is at least `2` whatever the round of candidate 3 reads (`boundarySearch_two_rounds`). -/
theorem optimizePartition_not_idempotent :
    RectPartitionInvariant collapsedPartitioner ∧
    (optimizePartition collapsedPartitioner).map
      (fun s3 => (s3._rectangle_partition_dev.data 0 0,
        decide (roundInBounds collapsedPartitioner 0 1 ∧ roundInBounds collapsedPartitioner 0 2),
        decide (roundInBounds s3 0 1 ∧ roundInBounds s3 0 2),
        decide (|sum_current_workload s3 0 2 - sum_ave_workload s3 0| <
          |sum_current_workload s3 0 1 - sum_ave_workload s3 0|))) =
      some (1, true, true, true) ∧
    ((optimizePartition collapsedPartitioner).bind optimizePartition).map
      (fun s6 => s6._rectangle_partition_dev.data 0 0) = some 2 := by
  set_option maxRecDepth 4096 in decide

/-! ## The candidate total and the lookups of a search -/

/-- A boundary search whose first round finds `diff < last_diff` examines the next
candidate as well. -/
theorem examinedCandidates_first_round (s : SparseDimPartitioner) (di : Nat) (sum_ave : Int)
    (fuel : Nat) (point_i last_diff : Int)
    (hd : |sum_current_workload s di point_i - sum_ave| < last_diff) :
    point_i + 1 ∈ examinedCandidates s di sum_ave (fuel + 1 + 1) point_i last_diff := by
  simp only [examinedCandidates, hd, if_true, List.mem_cons, true_or, or_true]

/-- C15 fails on the code. Uniform 4×4×4 grid, ranks-per-dimension (2, 2, 2), partition
`[0, 2, 4]` on every axis, first boundary search on axis 0 (`R = 2`, previous boundary
`b = 0`), candidate `c = 1`.  The total over the pencils of
`floor( boxsum( W; [0, 1) × pencil ) / 2 )` is 2 with the rank blocks of the code as
pencils and 0 with single-tile pencils; the value the code compares with the target is 4:
its bounds on axis 0 are the rows 0 and 1 of the kernel view, `0` and `2`.  All lookups
of that round are in bounds. -/
theorem sum_current_workload_not_candidate_range :
    (uniformPartitioner 2)._ranks_per_dim 0 = 2 ∧
    examinedCandidates (uniformPartitioner 2) 0 (sum_ave_workload (uniformPartitioner 2) 0)
      searchFuel 1 INT_MAX = [1, 2] ∧
    roundInBounds (uniformPartitioner 2) 0 1 ∧
    candidateTotalSpec uniformWorkload.data 0 2 0 1 (rankBlockPencils (uniformPartitioner 2) 0)
      = 2 ∧
    candidateTotalSpec uniformWorkload.data 0 2 0 1 (tilePencils (uniformPartitioner 2) 0) = 0 ∧
    sum_current_workload (uniformPartitioner 2) 0 1 = 4 ∧
    startOf6 (uniformPartitioner 2) 0 1 1 1 2 1 0 = 0 ∧
    endOf6 (uniformPartitioner 2) 0 1 1 1 2 1 0 = 2 := by
  decide

/-- C19 fails on the code. Uniform 4×4×4 grid, ranks-per-dimension (2, 2, 2), partition
`[0, 2, 4]` on every axis (the invariant holds, the kernel view has `max_size = 2` rows,
the table has the shape of the tile grid).  The first boundary search on axis 0 examines
the candidates 1 and 2, and the round of candidate 2 reads the cell `(2, 0)` of
`_rectangle_partition_dev`, which is outside the view. -/
theorem optimizePartition_reads_out_of_bounds :
    RectPartitionInvariant (uniformPartitioner 2) ∧
    (uniformPartitioner 2)._rectangle_partition_dev.extent0 =
      maxRanks (uniformPartitioner 2)._ranks_per_dim ∧
    (uniformPartitioner 2)._rectangle_partition_dev.extent0 = 2 ∧
    |sum_current_workload (uniformPartitioner 2) 0 1 - sum_ave_workload (uniformPartitioner 2) 0|
      < INT_MAX ∧
    examinedCandidates (uniformPartitioner 2) 0 (sum_ave_workload (uniformPartitioner 2) 0)
      searchFuel 1 INT_MAX = [1, 2] ∧
    (2, 0) ∈ devReads6 0 2 1 0 2 0 ∧
    ¬ (uniformPartitioner 2)._rectangle_partition_dev.inBounds (2, 0) ∧
    ¬ roundInBounds (uniformPartitioner 2) 0 2 := by
  decide

end Cajita
